import Mathlib

set_option maxRecDepth 8000

/-!
Shallow embedding of the Maysaa-Transposition columnar-transposition cipher
toolkit (`cipher.py`, `scoring.py`, `dictionary.py`, `attack.py`).

Modelling conventions:
* Python strings are `List Char` (ASCII model of `upper`/`isdigit`/`isalpha`).
* Python floats are `ℚ` (`float('inf')` becomes `Option.none` where it can arise).
* A raised exception is `Option.none`.
* Calls into `random` are driven by explicit oracle streams passed as arguments;
  an oracle value that `random` could never produce is guarded to a harmless
  in-range outcome so the functions stay total.
-/

/-- ASCII model of Python `str.upper`, character-wise. -/
def pyUpper (c : Char) : Char :=
  if 'a' ≤ c ∧ c ≤ 'z' then Char.ofNat (c.toNat - 32) else c

/-- Python `str.isdigit` for a single ASCII character. -/
def pyIsDigit (c : Char) : Bool := '0' ≤ c && c ≤ '9'

/-- Python `str.isalpha` for a single ASCII character. -/
def pyIsAlpha (c : Char) : Bool := ('A' ≤ c && c ≤ 'Z') || ('a' ≤ c && c ≤ 'z')

/-- Python `str(n)` for a natural number. -/
def natToStr (n : Nat) : List Char := Nat.toDigits 10 n

/-- The digit characters of `1 .. n` in order: the canonical numeric key. -/
def digitsList (n : Nat) : List Char := (List.range' 1 n).map Nat.digitChar

/-- Python `str.index`: position of the first occurrence of `needle` as a
substring of `hay`; `none` models the raised `ValueError`. -/
def strIndex (hay needle : List Char) : Option Nat :=
  (List.range (hay.length + 1)).find? (fun i => needle.isPrefixOf (hay.drop i))

/-- `math.ceil(a / b)` on naturals (callers have `b > 0`). -/
def pyCeilDiv (a b : Nat) : Nat := (a + b - 1) / b

/-- Python `str.rstrip(ch)`. -/
def rstrip (ch : Char) (l : List Char) : List Char :=
  (l.reverse.dropWhile (fun c => c == ch)).reverse

/-- Insertion step of a stable descending insertion sort by `key`: a newly
inserted element goes in front of the first element whose key is not larger,
so an earlier list element always stays in front of a later element with an
equal key, matching the stability of Python `list.sort`. -/
def insertDescBy {α : Type} {β : Type} [LinearOrder β] (key : α → β) (x : α) :
    List α → List α
  | [] => [x]
  | y :: ys => if key x < key y then y :: insertDescBy key x ys else x :: y :: ys

/-- Stable descending sort by `key`: model of Python
`list.sort(key=..., reverse=True)`. -/
def sortDescBy {α : Type} {β : Type} [LinearOrder β] (key : α → β) (l : List α) :
    List α :=
  l.foldr (insertDescBy key) []

/-- Stable ascending sort by `key`: model of Python `sorted(..., key=...)`. -/
def sortAscBy {α : Type} {β : Type} [LinearOrder β] (key : α → β) (l : List α) :
    List α :=
  sortDescBy (fun a => OrderDual.toDual (key a)) l

/-! ## `cipher.py` -/

/-- `cipher.keyword_to_numeric`: convert a keyword to a numeric key based on
alphabetical order (Python's `sorted` is stable, as is `sortAscBy`).  The
working list holds one string per position, as the Python list does. -/
def keyword_to_numeric (keyword : List Char) : List Char :=
  let indexed := keyword.enum.map (fun p => (pyUpper p.2, p.1))
  let sortedChars := sortAscBy (fun q => q.1) indexed
  let numeric := (sortedChars.enumFrom 1).foldl
    (fun acc rp => acc.set rp.2.2 (natToStr rp.1)) (List.replicate keyword.length ['0'])
  numeric.flatten

/-- `cipher.validate_key`: a key is valid iff it is non-empty and either all
digits whose set equals `{str(1), .., str(n)}`, or all alphabetic.  Python set
equality is modelled by two-sided membership of the written elements. -/
def validate_key (key : List Char) : Bool :=
  if key.isEmpty then false
  else if key.all pyIsDigit then
    let expected := (List.range' 1 key.length).map natToStr
    key.all (fun c => expected.contains [c]) && expected.all (fun s => key.any (fun c => [c] == s))
  else key.all pyIsAlpha

/-- `cipher.normalize_key`; `none` models the raised `ValueError`. -/
def normalize_key (key : List Char) : Option (List Char) :=
  if validate_key key then
    if key.all pyIsDigit then some key else some (keyword_to_numeric key)
  else none

/-- `cipher.encrypt`; `none` models a raised exception (invalid key, or a
failing `str.index` during the column lookup). -/
def encrypt (plaintext key : List Char) (keep_spaces : Bool) : Option (List Char) := do
  let nk ← normalize_key key
  let n := nk.length
  let p := if keep_spaces then plaintext else plaintext.filter (fun c => c != ' ')
  let numRows := pyCeilDiv p.length n
  let padded := p ++ List.replicate (numRows * n - p.length) 'X'
  let matrix := (List.range numRows).map (fun i =>
    (List.range n).map (fun j => padded.getD (i * n + j) 'X'))
  let cols ← (List.range' 1 n).mapM (fun colNum =>
    (strIndex nk (natToStr colNum)).map (fun colIdx =>
      matrix.map (fun row => row.getD colIdx 'X')))
  pure cols.flatten

/-- One cell update of the decryption matrix (cells are `''` or one char). -/
def setCell (m : Nat → Nat → List Char) (r c : Nat) (ch : Char) :
    Nat → Nat → List Char :=
  fun r' c' => if r' = r ∧ c' = c then [ch] else m r' c'

/-- `cipher.decrypt`; the matrix of one-character-or-empty cells is modelled
as a function, the sequential column fill as a fold threading the running
character index. -/
def decrypt (ciphertext key : List Char) : Option (List Char) := do
  let nk ← normalize_key key
  let n := nk.length
  let numRows := pyCeilDiv ciphertext.length n
  let st ← (List.range' 1 n).foldlM
    (fun (st : (Nat → Nat → List Char) × Nat) colNum =>
      (strIndex nk (natToStr colNum)).map (fun colIdx =>
        (List.range numRows).foldl (fun st2 rowIdx =>
          if st2.2 < ciphertext.length then
            (setCell st2.1 rowIdx colIdx (ciphertext.getD st2.2 'X'), st2.2 + 1)
          else st2) st))
    ((fun _ _ => []), 0)
  let plaintext := ((List.range numRows).map (fun r =>
    ((List.range n).map (fun c => st.1 r c)).flatten)).flatten
  pure (rstrip 'X' plaintext)

/-! ## `scoring.py` -/

/-- English letter frequencies (percentage): `scoring.ENGLISH_FREQ`. -/

def englishFreq (c : Char) : ℚ :=

  if c = 'A' then 8.167
  else if c = 'B' then 1.492
  else if c = 'C' then 2.782
  else if c = 'D' then 4.253
  else if c = 'E' then 12.702
  else if c = 'F' then 2.228
  else if c = 'G' then 2.015
  else if c = 'H' then 6.094
  else if c = 'I' then 6.966
  else if c = 'J' then 0.153
  else if c = 'K' then 0.772
  else if c = 'L' then 4.025
  else if c = 'M' then 2.406
  else if c = 'N' then 6.749
  else if c = 'O' then 7.507
  else if c = 'P' then 1.929
  else if c = 'Q' then 0.095
  else if c = 'R' then 5.987
  else if c = 'S' then 6.327
  else if c = 'T' then 9.056
  else if c = 'U' then 2.758
  else if c = 'V' then 0.978
  else if c = 'W' then 2.36
  else if c = 'X' then 0.15
  else if c = 'Y' then 1.974
  else if c = 'Z' then 0.074
  else 0

/-- Most frequent English bigrams: `scoring.COMMON_BIGRAMS`. -/
def COMMON_BIGRAMS : List (List Char × ℚ) :=
  [("TH".toList, (3.56 : ℚ)),
   ("HE".toList, (3.07 : ℚ)),
   ("IN".toList, (2.43 : ℚ)),
   ("ER".toList, (2.05 : ℚ)),
   ("AN".toList, (1.99 : ℚ)),
   ("RE".toList, (1.85 : ℚ)),
   ("ON".toList, (1.76 : ℚ)),
   ("AT".toList, (1.49 : ℚ)),
   ("EN".toList, (1.45 : ℚ)),
   ("ND".toList, (1.35 : ℚ)),
   ("TI".toList, (1.34 : ℚ)),
   ("ES".toList, (1.34 : ℚ)),
   ("OR".toList, (1.28 : ℚ)),
   ("TE".toList, (1.2 : ℚ)),
   ("OF".toList, (1.17 : ℚ)),
   ("ED".toList, (1.17 : ℚ)),
   ("IS".toList, (1.13 : ℚ)),
   ("IT".toList, (1.12 : ℚ)),
   ("AL".toList, (1.09 : ℚ)),
   ("AR".toList, (1.07 : ℚ)),
   ("ST".toList, (1.05 : ℚ)),
   ("TO".toList, (1.04 : ℚ)),
   ("NT".toList, (1.04 : ℚ)),
   ("NG".toList, (0.95 : ℚ)),
   ("SE".toList, (0.93 : ℚ)),
   ("HA".toList, (0.93 : ℚ)),
   ("AS".toList, (0.87 : ℚ)),
   ("OU".toList, (0.87 : ℚ)),
   ("IO".toList, (0.83 : ℚ)),
   ("LE".toList, (0.83 : ℚ))]

/-- Common English trigrams: `scoring.COMMON_TRIGRAMS`. -/
def COMMON_TRIGRAMS : List (List Char × ℚ) :=
  [("THE".toList, (3.51 : ℚ)),
   ("AND".toList, (1.59 : ℚ)),
   ("ING".toList, (1.14 : ℚ)),
   ("HER".toList, (0.82 : ℚ)),
   ("HAT".toList, (0.65 : ℚ)),
   ("HIS".toList, (0.6 : ℚ)),
   ("THA".toList, (0.6 : ℚ)),
   ("ERE".toList, (0.56 : ℚ)),
   ("FOR".toList, (0.56 : ℚ)),
   ("ENT".toList, (0.53 : ℚ)),
   ("ION".toList, (0.53 : ℚ)),
   ("TER".toList, (0.51 : ℚ)),
   ("WAS".toList, (0.51 : ℚ)),
   ("YOU".toList, (0.48 : ℚ)),
   ("ITH".toList, (0.48 : ℚ)),
   ("VER".toList, (0.47 : ℚ)),
   ("ALL".toList, (0.46 : ℚ)),
   ("WIT".toList, (0.46 : ℚ)),
   ("THI".toList, (0.46 : ℚ)),
   ("TIO".toList, (0.45 : ℚ))]

/-- Common English quadgrams: `scoring.COMMON_QUADGRAMS`. -/
def COMMON_QUADGRAMS : List (List Char × ℚ) :=
  [("TION".toList, (0.31 : ℚ)),
   ("THAT".toList, (0.27 : ℚ)),
   ("THER".toList, (0.24 : ℚ)),
   ("WITH".toList, (0.23 : ℚ)),
   ("MENT".toList, (0.19 : ℚ)),
   ("IONS".toList, (0.17 : ℚ)),
   ("THES".toList, (0.16 : ℚ)),
   ("ATIO".toList, (0.15 : ℚ)),
   ("FTHE".toList, (0.14 : ℚ)),
   ("DTHE".toList, (0.13 : ℚ)),
   ("ANDT".toList, (0.13 : ℚ)),
   ("INTH".toList, (0.12 : ℚ)),
   ("HERE".toList, (0.12 : ℚ)),
   ("STHE".toList, (0.12 : ℚ)),
   ("OTHE".toList, (0.11 : ℚ))]

/-- `scoring.chi_squared`; `none` models the `float('inf')` returned when the
text has no alphabetic characters (in particular for the empty text). -/
def chi_squared (text : List Char) : Option ℚ :=
  let t := text.map pyUpper
  let letters := t.filter pyIsAlpha
  if letters.length = 0 then none
  else some (("ABCDEFGHIJKLMNOPQRSTUVWXYZ".toList.map (fun letter =>
    let observed : ℚ := letters.count letter
    let expected : ℚ := englishFreq letter / 100 * letters.length
    if 0 < expected then (observed - expected) ^ 2 / expected else 0)).sum)

/-- `scoring.score_letter_frequency`: `max(0, 1 - chi_squared/500)`; when
`chi_squared` is `inf` the Python expression evaluates to `0.0`. -/
def score_letter_frequency (text : List Char) : ℚ :=
  match chi_squared text with
  | none => 0
  | some chi => max 0 (1 - chi / 500)

/-- Shared scan of `scoring.score_bigrams` / `score_trigrams` /
`score_quadgrams`: the fraction of the all-alphabetic windows of width `n` of
the uppercased text that occur as keys of `table`. -/
def ngramScore (n : Nat) (table : List (List Char × ℚ)) (text : List Char) : ℚ :=
  if text.length < n then 0
  else
    let t := text.map pyUpper
    let windows := (List.range (t.length - (n - 1))).filterMap (fun i =>
      let w := (t.drop i).take n
      if w.all pyIsAlpha then some w else none)
    if windows.length = 0 then 0
    else ((windows.filter (fun w => (table.map Prod.fst).contains w)).length : ℚ) /
      windows.length

/-- `scoring.score_bigrams`. -/
def score_bigrams (text : List Char) : ℚ := ngramScore 2 COMMON_BIGRAMS text

/-- `scoring.score_trigrams`. -/
def score_trigrams (text : List Char) : ℚ := ngramScore 3 COMMON_TRIGRAMS text

/-- `scoring.score_quadgrams`. -/
def score_quadgrams (text : List Char) : ℚ := ngramScore 4 COMMON_QUADGRAMS text

/-- `scoring.score_text`: weighted sum of the four metrics, `0` for texts of
length below 2. -/
def score_text (text : List Char) : ℚ :=
  if text.length < 2 then 0
  else score_letter_frequency text * 30 + score_bigrams text * 25 +
    score_trigrams text * 25 + score_quadgrams text * 20

/-- `scoring.score_with_dictionary`: dictionary bonus of up to 50%, capped
at 150. -/
def score_with_dictionary (text : List Char) (dictionary_score : ℚ) : ℚ :=
  min (score_text text * (1 + dictionary_score * 0.5)) 150

/-! ## `dictionary.py` -/

/-- The common-word set of `dictionary.COMMON_WORDS` (written elements of the
Python set literal, in order; list membership agrees with set membership). -/
def COMMON_WORDS : List (List Char) :=
  ["THE".toList, "BE".toList, "TO".toList, "OF".toList, "AND".toList, "A".toList, "IN".toList, 
   "THAT".toList, "HAVE".toList, "I".toList, "IT".toList, "FOR".toList, "NOT".toList, 
   "ON".toList, "WITH".toList, "HE".toList, "AS".toList, "YOU".toList, "DO".toList, 
   "AT".toList, "THIS".toList, "BUT".toList, "HIS".toList, "BY".toList, "FROM".toList, 
   "THEY".toList, "WE".toList, "SAY".toList, "HER".toList, "SHE".toList, "OR".toList, 
   "AN".toList, "WILL".toList, "MY".toList, "ONE".toList, "ALL".toList, "WOULD".toList, 
   "THERE".toList, "THEIR".toList, "WHAT".toList, "CAN".toList, "OUT".toList, "UP".toList, 
   "GET".toList, "GO".toList, "COME".toList, "KNOW".toList, "TIME".toList, "TAKE".toList, 
   "THEM".toList, "SEE".toList, "HIM".toList, "YEAR".toList, "SO".toList, "THINK".toList, 
   "WHEN".toList, "WHICH".toList, "MAKE".toList, "THAN".toList, "LOOK".toList, "WAY".toList, 
   "BEEN".toList, "CALL".toList, "WHO".toList, "OIL".toList, "ITS".toList, "NOW".toList, 
   "FIND".toList, "LONG".toList, "DOWN".toList, "DAY".toList, "DID".toList, "COULD".toList, 
   "OVER".toList, "NEW".toList, "WORK".toList, "LAST".toList, "WANT".toList, "ALSO".toList, 
   "PEOPLE".toList, "GIVE".toList, "USE".toList, "WATER".toList, "SAID".toList, "EACH".toList, 
   "SHE".toList, "WHICH".toList, "DO".toList, "THEIR".toList, "IF".toList, "MAN".toList, 
   "LIFE".toList, "WRITE".toList, "RIGHT".toList, "TOO".toList, "ANY".toList, "SAME".toList, 
   "THREE".toList, "HIGH".toList, "HAND".toList, "THING".toList, "PLACE".toList, "OLD".toList, 
   "FOLLOW".toList, "CAME".toList, "GOOD".toList, "SENTENCE".toList, "SET".toList, 
   "EVERY".toList, "ANSWER".toList, "SCHOOL".toList, "CHANGE".toList, "PLAY".toList, 
   "SPELL".toList, "AIR".toList, "AWAY".toList, "ANIMAL".toList, "HOUSE".toList, 
   "POINT".toList, "PAGE".toList, "LETTER".toList, "MOTHER".toList, "WORLD".toList, 
   "STILL".toList, "LEARN".toList, "PLANT".toList, "COVER".toList, "FOOD".toList, 
   "SUN".toList, "FOUR".toList, "BETWEEN".toList, "STATE".toList, "KEEP".toList, "EYE".toList, 
   "NEVER".toList, "LAST".toList, "LET".toList, "THOUGHT".toList, "CITY".toList, 
   "TREE".toList, "GREAT".toList, "WHERE".toList, "HELP".toList, "THROUGH".toList, 
   "MUCH".toList, "BEFORE".toList, "LINE".toList, "RIGHT".toList, "MEAN".toList, "OLD".toList, 
   "ANY".toList, "SAME".toList, "TELL".toList, "BOY".toList, "FOLLOW".toList, "CAME".toList, 
   "WANT".toList, "SHOW".toList, "ALSO".toList, "AROUND".toList, "FORM".toList, 
   "THREE".toList, "SMALL".toList, "SET".toList, "PUT".toList, "END".toList, "WHY".toList, 
   "ASKED".toList, "WENT".toList, "MEN".toList, "READ".toList, "NEED".toList, "LAND".toList, 
   "DIFFERENT".toList, "HOME".toList, "MOVE".toList, "TRY".toList, "KIND".toList, 
   "HAND".toList, "PICTURE".toList, "AGAIN".toList, "CHANGE".toList, "OFF".toList, 
   "PLAY".toList, "SPELL".toList, "AIR".toList, "AWAY".toList, "ANIMAL".toList, 
   "HOUSE".toList, "POINT".toList, "FOUND".toList, "STUDY".toList, "STILL".toList, 
   "LEARN".toList, "SHOULD".toList, "AMERICA".toList, "WORLD".toList, "HIGH".toList, 
   "EVERY".toList, "NEAR".toList, "ADD".toList, "FOOD".toList, "BETWEEN".toList, "OWN".toList, 
   "BELOW".toList, "COUNTRY".toList, "PLANT".toList, "LAST".toList, "SCHOOL".toList, 
   "FATHER".toList, "KEEP".toList, "TREE".toList, "NEVER".toList, "START".toList, 
   "CITY".toList, "EARTH".toList, "EYE".toList, "LIGHT".toList, "THOUGHT".toList, 
   "HEAD".toList, "UNDER".toList, "STORY".toList, "SAW".toList, "LEFT".toList, "DONT".toList, 
   "FEW".toList, "WHILE".toList, "ALONG".toList, "MIGHT".toList, "CLOSE".toList, 
   "SOMETHING".toList, "SEEM".toList, "NEXT".toList, "HARD".toList, "OPEN".toList, 
   "EXAMPLE".toList, "BEGIN".toList, "LIFE".toList, "ALWAYS".toList, "THOSE".toList, 
   "BOTH".toList, "PAPER".toList, "TOGETHER".toList, "GOT".toList, "GROUP".toList, 
   "OFTEN".toList, "RUN".toList, "IMPORTANT".toList, "UNTIL".toList, "CHILDREN".toList, 
   "SIDE".toList, "FEET".toList, "CAR".toList, "MILE".toList, "NIGHT".toList, "WALK".toList, 
   "WHITE".toList, "SEA".toList, "BEGAN".toList, "GROW".toList, "TOOK".toList, "RIVER".toList, 
   "FOUR".toList, "CARRY".toList, "STATE".toList, "ONCE".toList, "BOOK".toList, "HEAR".toList, 
   "STOP".toList, "WITHOUT".toList, "SECOND".toList, "LATER".toList, "MISS".toList, 
   "IDEA".toList, "ENOUGH".toList, "EAT".toList, "FACE".toList, "WATCH".toList, "FAR".toList, 
   "INDIAN".toList, "REAL".toList, "ALMOST".toList, "LET".toList, "ABOVE".toList, 
   "GIRL".toList, "SOMETIMES".toList, "MOUNTAIN".toList, "CUT".toList, "YOUNG".toList, 
   "TALK".toList, "SOON".toList, "LIST".toList, "SONG".toList, "BEING".toList, "LEAVE".toList, 
   "FAMILY".toList, "BODY".toList, "MUSIC".toList, "COLOR".toList, "STAND".toList, 
   "SUN".toList, "QUESTIONS".toList, "FISH".toList, "AREA".toList, "MARK".toList, 
   "DOG".toList, "HORSE".toList, "BIRDS".toList, "PROBLEM".toList, "COMPLETE".toList, 
   "ROOM".toList, "KNEW".toList, "SINCE".toList, "EVER".toList, "PIECE".toList, "TOLD".toList, 
   "USUALLY".toList, "DIDNT".toList, "FRIENDS".toList, "EASY".toList, "HEARD".toList, 
   "ORDER".toList, "RED".toList, "DOOR".toList, "SURE".toList, "BECOME".toList, "TOP".toList, 
   "SHIP".toList, "ACROSS".toList, "TODAY".toList, "DURING".toList, "SHORT".toList, 
   "BETTER".toList, "BEST".toList, "HOWEVER".toList, "LOW".toList, "HOURS".toList, 
   "BLACK".toList, "PRODUCTS".toList, "HAPPENED".toList, "WHOLE".toList, "MEASURE".toList, 
   "REMEMBER".toList, "EARLY".toList, "WAVES".toList, "REACHED".toList, "LISTEN".toList, 
   "WIND".toList, "ROCK".toList, "SPACE".toList, "COVERED".toList, "FAST".toList, 
   "SEVERAL".toList, "HOLD".toList, "HIMSELF".toList, "TOWARD".toList, "FIVE".toList, 
   "STEP".toList, "MORNING".toList, "PASSED".toList, "VOWEL".toList, "TRUE".toList, 
   "HUNDRED".toList, "AGAINST".toList, "PATTERN".toList, "NUMERAL".toList, "TABLE".toList, 
   "NORTH".toList, "SLOWLY".toList, "MONEY".toList, "MAP".toList, "FARM".toList, 
   "PULLED".toList, "DRAW".toList, "VOICE".toList, "SEEN".toList, "COLD".toList, 
   "CRIED".toList, "PLAN".toList, "NOTICE".toList, "SOUTH".toList, "SING".toList, 
   "WAR".toList, "GROUND".toList, "FALL".toList, "KING".toList, "TOWN".toList, "ILL".toList, 
   "UNIT".toList, "FIGURE".toList, "SYSTEM".toList, "PROGRAM".toList, "COMPUTER".toList, 
   "DATA".toList, "SECURITY".toList, "CODE".toList, "MESSAGE".toList, "TEXT".toList, 
   "CIPHER".toList, "KEY".toList, "ENCRYPT".toList, "DECRYPT".toList, "ATTACK".toList, 
   "ALGORITHM".toList, "METHOD".toList, "PROCESS".toList, "RESULT".toList, "TEST".toList, 
   "QUESTION".toList, "POWER".toList, "CANNOT".toList, "ABLE".toList, "SIX".toList, 
   "SIZE".toList, "DARK".toList, "BALL".toList, "MATERIAL".toList, "SPECIAL".toList, 
   "HEAVY".toList, "FINE".toList, "PAIR".toList, "CIRCLE".toList, "INCLUDE".toList, 
   "BUILT".toList, "NOTHING".toList, "COURSE".toList, "STAY".toList, "WHEEL".toList, 
   "FULL".toList, "FORCE".toList, "BLUE".toList, "OBJECT".toList, "DECIDE".toList, 
   "SURFACE".toList, "DEEP".toList, "MOON".toList, "ISLAND".toList, "FOOT".toList, 
   "YET".toList, "BUSY".toList, "TEST".toList, "RECORD".toList, "BOAT".toList, 
   "COMMON".toList, "GOLD".toList, "POSSIBLE".toList, "PLANE".toList, "AGE".toList, 
   "DRY".toList, "WONDER".toList, "LAUGH".toList, "THOUSAND".toList, "AGO".toList, 
   "RAN".toList, "CHECK".toList, "GAME".toList, "SHAPE".toList, "YES".toList, "HOT".toList, 
   "MISS".toList, "BROUGHT".toList, "HEAT".toList, "SNOW".toList, "BED".toList, 
   "BRING".toList, "SIT".toList, "PERHAPS".toList, "FILL".toList, "EAST".toList, 
   "WEIGHT".toList, "LANGUAGE".toList, "AMONG".toList, "QUICK".toList, "BROWN".toList, 
   "FOX".toList, "JUMPS".toList, "LAZY".toList, "OVER".toList]

/-- `dictionary.find_words_in_text`: every dictionary word found at any start
position, with a lookahead bounded by `range(i + min_length, min(i + 15, len + 1))`. -/
def find_words_in_text (text : List Char) (min_length : Nat) :
    List (List Char × Nat × Nat) :=
  let t := text.map pyUpper
  (List.range t.length).flatMap (fun i =>
    (List.range' (i + min_length) (min (i + 15) (t.length + 1) - (i + min_length))).filterMap
      (fun j =>
        let sub := (t.drop i).take (j - i)
        if COMMON_WORDS.contains sub then some (sub, i, j) else none))

/-- `dictionary.score_text_by_dictionary`: greedy interval cover by the found
words, longest spans first (Python's stable sort), returning the covered
fraction of the text. -/
def score_text_by_dictionary (text : List Char) : ℚ :=
  if text.isEmpty then 0
  else
    let t := text.map pyUpper
    let found := find_words_in_text t 2
    if found.isEmpty then 0
    else
      let sorted := sortDescBy (fun w => w.2.2 - w.2.1) found
      let coverage := sorted.foldl (fun cov w =>
        if ((cov.drop w.2.1).take (w.2.2 - w.2.1)).any id then cov
        else cov.enum.map (fun p => if w.2.1 ≤ p.1 ∧ p.1 < w.2.2 then true else p.2))
        (List.replicate t.length false)
      (coverage.count true : ℚ) / t.length

/-! ## `attack.py`

Calls into `random` are driven by oracle streams passed as explicit
arguments: `random.shuffle` consumes an oracle reordering of the positions,
`random.sample(range(n), 2)` an oracle pair, `random.choice` an oracle index
taken modulo the list length.  Oracle values that the `random` module could
never produce are guarded to a harmless in-range outcome, keeping the
functions total there. -/

/-- `attack.evaluate_plaintext` (`base_score` is computed and unused in the
source). -/
def evaluate_plaintext (plaintext : List Char) : ℚ :=
  score_with_dictionary plaintext (score_text_by_dictionary plaintext)

/-- `attack.generate_random_key`: shuffle `[1, .., length]` by the oracle
reordering `σ` and join the decimal strings. -/
def generate_random_key (length : Nat) (σ : List Nat) : List Char :=
  let digits := List.range' 1 length
  let shuffled := if σ.Perm (List.range digits.length)
    then σ.map (fun i => digits.getD i 0) else digits
  (shuffled.map natToStr).flatten

/-- `attack.swap_random_positions`: `none` models the `ValueError` that
`random.sample(range(len(key)), 2)` raises when the key has fewer than two
characters; otherwise the two sampled positions come from the oracle
(`random.sample` always yields two distinct in-range positions). -/
def swap_random_positions (key : List Char) (ij : Nat × Nat) : Option (List Char) :=
  if key.length < 2 then none
  else if ij.1 < key.length ∧ ij.2 < key.length ∧ ij.1 ≠ ij.2 then
    some ((key.set ij.1 (key.getD ij.2 '0')).set ij.2 (key.getD ij.1 '0'))
  else some key

/-- `attack.mutate_key`. -/
def mutate_key (key : List Char) (ij : Nat × Nat) : Option (List Char) :=
  swap_random_positions key ij

/-- `attack.crossover_keys` (order crossover); `none` models the `ValueError`
that `random.sample(range(length), 2)` raises when `key1` has fewer than two
characters, as well as the `IndexError` raised when `parent2_pos` runs off
`key2`; otherwise the two crossover points are the oracle's
`sorted(random.sample(range(length), 2))`, clamped into range. -/
def crossover_keys (key1 key2 : List Char) (pts : Nat × Nat) : Option (List Char) :=
  if key1.length < 2 then none
  else
  let length := key1.length
  let point1 := min (min pts.1 pts.2) length
  let point2 := min (max pts.1 pts.2) length
  let child0 := (List.range' point1 (point2 - point1)).foldl
    (fun child i => child.set i (key1.getD i '0')) (List.replicate length '0')
  let fill := (List.range point1) ++ (List.range' point2 (length - point2))
  (fill.foldlM (fun (st : List Char × Nat) i =>
    match (key2.drop st.2).findIdx? (fun c => !(st.1.contains c)) with
    | none => none
    | some k => some (st.1.set i (key2.getD (st.2 + k) '0'), st.2 + k + 1))
    (child0, 0)).map Prod.fst

/-- Loop state of `attack.hill_climbing_attack`.  `evals` and `accepted` are
ghost instrumentation: the scores of every candidate evaluated so far
(initial key, every neighbor, every restart key) and of every accepted
neighbor; they influence nothing. -/
structure HCState where
  currentKey : List Char
  currentText : List Char
  currentScore : ℚ
  bestKey : List Char
  bestText : List Char
  bestScore : ℚ
  noImp : Nat
  restarts : Nat
  evals : List ℚ
  accepted : List ℚ

/-- Oracle streams for `hill_climbing_attack`: `initKey t` drives the `t`-th
`generate_random_key` shuffle (initial key, then each restart), `swapIdx i`
the neighbor swap of iteration `i`. -/
structure HCOracle where
  initKey : Nat → List Nat
  swapIdx : Nat → Nat × Nat

/-- One iteration of the `hill_climbing_attack` loop (`max_no_improvement`
is the source's fixed `100`). -/
def hcStep (ciphertext : List Char) (key_length : Nat) (o : HCOracle)
    (st : HCState) (iteration : Nat) : Option HCState := do
  let nKey ← swap_random_positions st.currentKey (o.swapIdx iteration)
  let nText ← decrypt ciphertext nKey
  let nScore := evaluate_plaintext nText
  if st.currentScore < nScore then
    if st.bestScore < nScore then
      pure { st with
             currentKey := nKey
             currentText := nText
             currentScore := nScore
             bestKey := nKey
             bestText := nText
             bestScore := nScore
             noImp := 0
             evals := st.evals ++ [nScore]
             accepted := st.accepted ++ [nScore] }
    else
      pure { st with
             currentKey := nKey
             currentText := nText
             currentScore := nScore
             noImp := 0
             evals := st.evals ++ [nScore]
             accepted := st.accepted ++ [nScore] }
  else
    if 100 ≤ st.noImp + 1 then do
      let rKey := generate_random_key key_length (o.initKey st.restarts)
      let rText ← decrypt ciphertext rKey
      let rScore := evaluate_plaintext rText
      pure { st with
             noImp := 0
             restarts := st.restarts + 1
             currentKey := rKey
             currentText := rText
             currentScore := rScore
             evals := st.evals ++ [nScore, rScore] }
    else
      pure { st with
             noImp := st.noImp + 1
             evals := st.evals ++ [nScore] }

/-- The state of `hill_climbing_attack` before the first loop iteration. -/
def hcInit (ciphertext : List Char) (key_length : Nat) (o : HCOracle) :
    Option HCState := do
  let key := generate_random_key key_length (o.initKey 0)
  let text ← decrypt ciphertext key
  let score := evaluate_plaintext text
  pure { currentKey := key
         currentText := text
         currentScore := score
         bestKey := key
         bestText := text
         bestScore := score
         noImp := 0
         restarts := 1
         evals := [score]
         accepted := [] }

/-- The state of `hill_climbing_attack` after `iters` loop iterations. -/
def hcRun (ciphertext : List Char) (key_length : Nat) (o : HCOracle)
    (iters : Nat) : Option HCState :=
  (hcInit ciphertext key_length o).bind
    (fun st0 => (List.range iters).foldlM (hcStep ciphertext key_length o) st0)

/-- `attack.hill_climbing_attack`: run `max_iterations` iterations and return
`(best_key, best_plaintext, best_score)`. -/
def hill_climbing_attack (ciphertext : List Char) (key_length max_iterations : Nat)
    (o : HCOracle) : Option (List Char × List Char × ℚ) :=
  (hcRun ciphertext key_length o max_iterations).map
    (fun st => (st.bestKey, st.bestText, st.bestScore))

/-- Oracle streams for `genetic_algorithm_attack`, indexed by generation and
refill slot. -/
structure GAOracle where
  initShuffle : Nat → List Nat
  parentA : Nat → Nat → Nat
  parentB : Nat → Nat → Nat
  crossPts : Nat → Nat → Nat × Nat
  mutCoin : Nat → Nat → Bool
  mutSwap : Nat → Nat → Nat × Nat

/-- One generation of `attack.genetic_algorithm_attack`: score the
population, keep the top half (stable descending sort by fitness), refill by
order crossover of oracle-chosen surviving parents with a possible
swap-mutation. -/
def gaStep (ciphertext : List Char) (population_size : Nat) (o : GAOracle)
    (g : Nat) (population : List (List Char)) : Option (List (List Char)) := do
  let fitness ← population.mapM (fun key => do
    let pt ← decrypt ciphertext key
    pure (key, pt, evaluate_plaintext pt))
  let sorted := sortDescBy (fun t => t.2.2) fitness
  let selected := (sorted.take (population_size / 2)).map (fun t => t.1)
  (List.range (population_size - selected.length)).foldlM (fun newpop slot => do
    let p1 := selected.getD (o.parentA g slot % selected.length) []
    let p2 := selected.getD (o.parentB g slot % selected.length) []
    let child ← crossover_keys p1 p2 (o.crossPts g slot)
    let child ← if o.mutCoin g slot then mutate_key child (o.mutSwap g slot)
      else pure child
    pure (newpop ++ [child])) selected

/-- The population of `genetic_algorithm_attack` entering generation `g`. -/
def gaPopAt (ciphertext : List Char) (key_length population_size : Nat)
    (o : GAOracle) : Nat → Option (List (List Char))
  | 0 => some ((List.range population_size).map
      (fun t => generate_random_key key_length (o.initShuffle t)))
  | g + 1 => (gaPopAt ciphertext key_length population_size o g).bind
      (gaStep ciphertext population_size o g)

/-- `itertools.permutations` in its emission order (lexicographic by input
position); the `Nat` fuel equals the list length at every call. -/
def permsLexGo {α : Type} : Nat → List α → List (List α)
  | 0, _ => [[]]
  | n + 1, l => l.enum.flatMap (fun p => (permsLexGo n (l.eraseIdx p.1)).map (p.2 :: ·))

/-- The candidate keys of one key length in generation order, as in
`attack.brute_force_attack`: permutations of the digit strings
`str(1) .. str(key_length)`, joined. -/
def key_perms (key_length : Nat) : List (List Char) :=
  let digits := (List.range' 1 key_length).map natToStr
  (permsLexGo digits.length digits).map List.flatten

/-- The `(key, plaintext, score)` triples of `brute_force_attack` in
generation order; a failing decryption is skipped by the `except` clause. -/
def bruteResults (ciphertext : List Char) (max_key_length : Nat) :
    List (List Char × List Char × ℚ) :=
  (List.range' 1 max_key_length).flatMap (fun kl =>
    (key_perms kl).filterMap (fun key =>
      (decrypt ciphertext key).map (fun pt =>
        (key, pt, score_with_dictionary pt (score_text_by_dictionary pt)))))

/-- `attack.brute_force_attack`: every generated result, then Python's stable
`sort(key=score, reverse=True)`. -/
def brute_force_attack (ciphertext : List Char) (max_key_length : Nat) :
    List (List Char × List Char × ℚ) :=
  sortDescBy (fun t => t.2.2) (bruteResults ciphertext max_key_length)

/-- `attack.calculate_ic`: Index of Coincidence over the alphabetic
characters. -/
def calculate_ic (text : List Char) : ℚ :=
  if text.length < 2 then 0
  else
    let t := text.map pyUpper
    let letters := t.filter pyIsAlpha
    if letters.length < 2 then 0
    else ((letters.dedup.map (fun c =>
        (letters.count c : ℚ) * ((letters.count c : ℚ) - 1))).sum) /
      ((letters.length : ℚ) * ((letters.length : ℚ) - 1))

/-- Result record of `attack.analyze_ciphertext`. -/
structure AnalyzeResult where
  length : Nat
  factors : List Nat
  ic_scores : List (Nat × ℚ)
  suggested_key_lengths : List Nat

/-- The round-robin columns of `analyze_ciphertext` for a trial key length
(`ciphertext[i]` assigned to column `i mod kl`) and their average Index of
Coincidence. -/
def icAverage (ciphertext : List Char) (kl : Nat) : ℚ :=
  let columns := (List.range kl).map (fun j =>
    (ciphertext.enum.filter (fun p => p.1 % kl == j)).map (fun p => p.2))
  ((columns.map calculate_ic).sum) / (kl : ℚ)

/-- The trial key lengths of `analyze_ciphertext`:
`range(2, min(length // 2, 15))`. -/
def trial_key_lengths (ciphertext : List Char) : List Nat :=
  List.range' 2 (min (ciphertext.length / 2) 15 - 2)

/-- `attack.analyze_ciphertext`: divisors of the length in
`range(2, min(length, 20))`, per-trial-length average column Index of
Coincidence (`ic_scores` keyed in ascending trial-length order, like the
insertion-ordered Python dict), and the 5 trial lengths whose average IC is
closest to the English `0.067` (Python's stable `sorted`, then `[:5]`). -/
def analyze_ciphertext (ciphertext : List Char) : AnalyzeResult :=
  let length := ciphertext.length
  { length := length
    factors := (List.range' 2 (min length 20 - 2)).filter (fun i => length % i == 0)
    ic_scores := (trial_key_lengths ciphertext).map
      (fun kl => (kl, icAverage ciphertext kl))
    suggested_key_lengths :=
      (sortAscBy (fun kl => |icAverage ciphertext kl - 0.067|)
        (trial_key_lengths ciphertext)).take 5 }

/-- Generation order of `brute_force_attack` results: shorter key first, and
among keys of one length the lexicographically smaller key first (the order
in which `itertools.permutations` emits permutations of the ascending digit
list). -/
def keyOrder (k1 k2 : List Char) : Prop :=
  k1.length < k2.length ∨ (k1.length = k2.length ∧ List.Lex (· < ·) k1 k2)

/-! ## Basic facts about the helper functions -/

theorem natToStr_of_lt_ten (i : Nat) (h : i < 10) :
    natToStr i = [Nat.digitChar i] := by
  simp [natToStr, Nat.toDigits, Nat.toDigitsCore, Nat.div_eq_of_lt h,
    Nat.mod_eq_of_lt h]

theorem toDigitsCore_length_ge (b : Nat) :
    ∀ (f n : Nat) (ds : List Char), 1 ≤ f →
      ds.length + 1 ≤ (Nat.toDigitsCore b f n ds).length := by
  intro f
  induction f with
  | zero => intro n ds h; omega
  | succ f ih =>
    intro n ds _
    simp only [Nat.toDigitsCore]
    by_cases h : n / b = 0
    · simp [h]
    · rw [if_neg h]
      rcases Nat.eq_zero_or_pos f with hf | hf
      · subst hf; simp [Nat.toDigitsCore]
      · have := ih (n / b) (Nat.digitChar (n % b) :: ds) hf
        simp only [List.length_cons] at this
        omega

theorem natToStr_length_ge_two (i : Nat) (h : 10 ≤ i) :
    2 ≤ (natToStr i).length := by
  have hne : ¬ i / 10 = 0 := by
    have := Nat.div_pos h (by norm_num)
    omega
  have hcore := toDigitsCore_length_ge 10 i (i / 10)
    [Nat.digitChar (i % 10)] (by omega)
  simp only [natToStr, Nat.toDigits, Nat.toDigitsCore, if_neg hne]
  simpa using hcore

theorem natToStr_eq_singleton_iff {i : Nat} {c : Char} :
    natToStr i = [c] ↔ i < 10 ∧ c = Nat.digitChar i := by
  constructor
  · intro h
    by_cases hi : i < 10
    · rw [natToStr_of_lt_ten i hi] at h
      simp at h
      exact ⟨hi, h.symm⟩
    · have := natToStr_length_ge_two i (by omega)
      rw [h] at this
      simp at this
  · rintro ⟨hi, rfl⟩
    exact natToStr_of_lt_ten i hi

theorem pyIsDigit_digitChar (i : Nat) (h1 : 1 ≤ i) (h9 : i ≤ 9) :
    pyIsDigit (Nat.digitChar i) = true := by
  interval_cases i <;> decide

theorem digitChar_inj_le_nine {i j : Nat} (hi : i ≤ 9) (hj : j ≤ 9)
    (h : Nat.digitChar i = Nat.digitChar j) : i = j := by
  interval_cases i <;> interval_cases j <;> first | rfl | (revert h; decide)

theorem digitChar_ge_sixteen {i : Nat} (h : 16 ≤ i) :
    Nat.digitChar i = '*' := by
  unfold Nat.digitChar
  repeat rw [if_neg (by omega)]

theorem pyIsDigit_digitChar_le_nine {i : Nat}
    (h : pyIsDigit (Nat.digitChar i) = true) : i ≤ 9 := by
  by_contra hgt
  rcases Nat.lt_or_ge i 16 with h16 | h16
  · interval_cases i <;> revert h <;> decide
  · rw [digitChar_ge_sixteen h16] at h
    revert h
    decide

theorem digitsList_length (n : Nat) : (digitsList n).length = n := by
  simp [digitsList]

theorem mem_digitsList {c : Char} {n : Nat} :
    c ∈ digitsList n ↔ ∃ i, 1 ≤ i ∧ i ≤ n ∧ c = Nat.digitChar i := by
  simp only [digitsList, List.mem_map, List.mem_range']
  constructor
  · rintro ⟨a, ⟨i, hi, rfl⟩, rfl⟩
    exact ⟨1 + 1 * i, by omega, by omega, rfl⟩
  · rintro ⟨i, h1, hn, rfl⟩
    exact ⟨i, ⟨i - 1, by omega, by omega⟩, rfl⟩

theorem digitsList_nodup {n : Nat} (h : n ≤ 9) : (digitsList n).Nodup := by
  refine List.Nodup.map_on ?_ (List.nodup_range' 1 n)
  intro x hx y hy hxy
  rw [List.mem_range'] at hx hy
  obtain ⟨i, hi, rfl⟩ := hx
  obtain ⟨j, hj, rfl⟩ := hy
  have := @digitChar_inj_le_nine (1 + 1 * i) (1 + 1 * j)
    (by omega) (by omega) hxy
  omega

theorem pyIsAlpha_not_digit {c : Char} (h : pyIsAlpha c = true) :
    pyIsDigit c = false := by
  rw [pyIsAlpha] at h
  rw [pyIsDigit]
  rcases Bool.or_eq_true _ _ |>.mp h with h1 | h1
  · have ha : ('A' : Char) ≤ c := of_decide_eq_true (Bool.and_eq_true _ _ |>.mp h1).1
    have h9 : ¬ (c ≤ '9') := not_le.mpr (lt_of_lt_of_le (by decide) ha)
    simp [h9]
  · have ha : ('a' : Char) ≤ c := of_decide_eq_true (Bool.and_eq_true _ _ |>.mp h1).1
    have h9 : ¬ (c ≤ '9') := not_le.mpr (lt_of_lt_of_le (by decide) ha)
    simp [h9]

/-! ## `validate_key`: characterization -/

theorem validate_key_eq_true_iff (key : List Char) :
    validate_key key = true ↔
      key ≠ [] ∧
        (((∀ c ∈ key, pyIsDigit c = true) ∧ key.Perm (digitsList key.length)) ∨
          (∀ c ∈ key, pyIsAlpha c = true)) := by
  unfold validate_key
  split_ifs with h1 h2
  · rw [List.isEmpty_iff] at h1
    subst h1
    simp
  · rw [List.isEmpty_iff] at h1
    rw [List.all_eq_true] at h2
    constructor
    · intro h
      rw [Bool.and_eq_true, List.all_eq_true, List.all_eq_true] at h
      obtain ⟨hsub, hsup⟩ := h
      refine ⟨h1, Or.inl ⟨h2, ?_⟩⟩
      have hmem : ∀ i, 1 ≤ i → i ≤ key.length →
          i ≤ 9 ∧ Nat.digitChar i ∈ key := by
        intro i hi1 hin
        have : natToStr i ∈ (List.range' 1 key.length).map natToStr :=
          List.mem_map_of_mem _ (by
            rw [List.mem_range']
            exact ⟨i - 1, by omega, by omega⟩)
        have := hsup _ this
        rw [List.any_eq_true] at this
        obtain ⟨c, hc, hcs⟩ := this
        rw [beq_iff_eq] at hcs
        obtain ⟨hlt, rfl⟩ := natToStr_eq_singleton_iff.mp hcs.symm
        have h9 : i ≤ 9 := pyIsDigit_digitChar_le_nine (h2 _ hc)
        exact ⟨h9, hc⟩
      have hlen1 : 1 ≤ key.length := by
        cases key with
        | nil => exact absurd rfl h1
        | cons a l => simp
      have hn9 : key.length ≤ 9 := (hmem _ hlen1 le_rfl).1
      have hsubset : digitsList key.length ⊆ key := by
        intro c hc
        obtain ⟨i, hi1, hin, rfl⟩ := mem_digitsList.mp hc
        exact (hmem i hi1 hin).2
      have hsp : (digitsList key.length).Subperm key :=
        (digitsList_nodup hn9).subperm hsubset
      have := hsp.perm_of_length_le (by rw [digitsList_length])
      exact this.symm
    · rintro ⟨-, hor⟩
      rcases hor with ⟨-, hperm⟩ | halpha
      · have hlen1 : 1 ≤ key.length := by
          cases key with
          | nil => exact absurd rfl h1
          | cons a l => simp
        have hn9 : key.length ≤ 9 := by
          have hd : Nat.digitChar key.length ∈ key :=
            hperm.symm.subset (mem_digitsList.mpr ⟨key.length, hlen1, le_rfl, rfl⟩)
          exact pyIsDigit_digitChar_le_nine (h2 _ hd)
        rw [Bool.and_eq_true, List.all_eq_true, List.all_eq_true]
        constructor
        · intro c hc
          obtain ⟨i, hi1, hin, rfl⟩ := mem_digitsList.mp (hperm.subset hc)
          have : [Nat.digitChar i] = natToStr i :=
            (natToStr_of_lt_ten i (by omega)).symm
          rw [this]
          have : natToStr i ∈ (List.range' 1 key.length).map natToStr :=
            List.mem_map_of_mem _ (by
              rw [List.mem_range']
              exact ⟨i - 1, by omega, by omega⟩)
          exact List.elem_eq_true_of_mem this
        · intro s hs
          obtain ⟨i, hi, rfl⟩ := List.mem_map.mp hs
          rw [List.mem_range'] at hi
          obtain ⟨j, hj, rfl⟩ := hi
          rw [List.any_eq_true]
          refine ⟨Nat.digitChar (1 + 1 * j), ?_, ?_⟩
          · exact hperm.symm.subset
              (mem_digitsList.mpr ⟨1 + 1 * j, by omega, by omega, rfl⟩)
          · rw [beq_iff_eq]
            exact (natToStr_of_lt_ten _ (by omega)).symm
      · exfalso
        have hlen1 : ∃ c, c ∈ key := by
          cases key with
          | nil => exact absurd rfl h1
          | cons a l => exact ⟨a, List.mem_cons_self a l⟩
        obtain ⟨c, hc⟩ := hlen1
        have := pyIsAlpha_not_digit (halpha c hc)
        rw [h2 c hc] at this
        cases this
  · rw [List.isEmpty_iff] at h1
    constructor
    · intro h
      rw [List.all_eq_true] at h
      exact ⟨h1, Or.inr h⟩
    · rintro ⟨-, hor⟩
      rcases hor with ⟨hdig, -⟩ | halpha
      · exact absurd (List.all_eq_true.mpr hdig) h2
      · exact List.all_eq_true.mpr halpha

/-! ## Stable sort lemmas -/

theorem insertDescBy_perm {α β : Type} [LinearOrder β] (key : α → β) (x : α)
    (l : List α) : (insertDescBy key x l).Perm (x :: l) := by
  induction l with
  | nil => simp [insertDescBy]
  | cons y ys ih =>
    rw [insertDescBy]
    split_ifs with h
    · exact (ih.cons y).trans (List.Perm.swap x y ys)
    · rfl

theorem sortDescBy_perm {α β : Type} [LinearOrder β] (key : α → β) (l : List α) :
    (sortDescBy key l).Perm l := by
  induction l with
  | nil => rfl
  | cons x xs ih =>
    have hrw : sortDescBy key (x :: xs) = insertDescBy key x (sortDescBy key xs) := rfl
    rw [hrw]
    exact (insertDescBy_perm key x _).trans (ih.cons x)

theorem sortAscBy_perm {α β : Type} [LinearOrder β] (key : α → β) (l : List α) :
    (sortAscBy key l).Perm l :=
  sortDescBy_perm _ l

theorem insertDescBy_pairwise {α β : Type} [LinearOrder β] (key : α → β)
    (R : α → α → Prop) (x : α) (l : List α)
    (hl : l.Pairwise (fun a b => key b < key a ∨ (key a = key b ∧ R a b)))
    (hx : ∀ y ∈ l, R x y) :
    (insertDescBy key x l).Pairwise
      (fun a b => key b < key a ∨ (key a = key b ∧ R a b)) := by
  induction l with
  | nil => simp [insertDescBy]
  | cons y ys ih =>
    rw [insertDescBy]
    rw [List.pairwise_cons] at hl
    obtain ⟨hy, hys⟩ := hl
    split_ifs with h
    · rw [List.pairwise_cons]
      refine ⟨?_, ih hys (fun z hz => hx z (List.mem_cons_of_mem y hz))⟩
      intro b hb
      rcases List.mem_cons.mp ((insertDescBy_perm key x ys).subset hb) with rfl | hb'
      · exact Or.inl h
      · exact hy b hb'
    · push_neg at h
      rw [List.pairwise_cons]
      refine ⟨?_, List.pairwise_cons.mpr ⟨hy, hys⟩⟩
      intro b hb
      rcases List.mem_cons.mp hb with rfl | hb'
      · rcases lt_or_eq_of_le h with hlt | heq
        · exact Or.inl hlt
        · exact Or.inr ⟨heq.symm, hx b (List.mem_cons_self b ys)⟩
      · have hb_le : key b ≤ key x := by
          rcases hy b hb' with hlt | ⟨heq, -⟩
          · exact le_of_lt (lt_of_lt_of_le hlt h)
          · rw [← heq]; exact h
        rcases lt_or_eq_of_le hb_le with hlt | heq
        · exact Or.inl hlt
        · exact Or.inr ⟨heq.symm, hx b (List.mem_cons_of_mem y hb')⟩

theorem sortDescBy_pairwise {α β : Type} [LinearOrder β] (key : α → β)
    (R : α → α → Prop) (l : List α) (hl : l.Pairwise R) :
    (sortDescBy key l).Pairwise
      (fun a b => key b < key a ∨ (key a = key b ∧ R a b)) := by
  induction l with
  | nil => simp [sortDescBy]
  | cons x xs ih =>
    rw [List.pairwise_cons] at hl
    exact insertDescBy_pairwise key R x (sortDescBy key xs) (ih hl.2)
      (fun y hy => hl.1 y ((sortDescBy_perm key xs).subset hy))

theorem sortAscBy_pairwise {α β : Type} [LinearOrder β] (key : α → β)
    (R : α → α → Prop) (l : List α) (hl : l.Pairwise R) :
    (sortAscBy key l).Pairwise
      (fun a b => key a < key b ∨ (key a = key b ∧ R a b)) := by
  have h := sortDescBy_pairwise (fun a => OrderDual.toDual (key a)) R l hl
  refine h.imp ?_
  intro a b hab
  rcases hab with hlt | ⟨heq, hr⟩
  · exact Or.inl (OrderDual.toDual_lt_toDual.mp hlt)
  · exact Or.inr ⟨OrderDual.toDual_inj.mp heq, hr⟩

/-! ## Position-assignment folds (the rank assignment of `keyword_to_numeric`) -/

theorem foldl_set_length {α γ : Type} (pos : γ → Nat) (val : γ → α) :
    ∀ (ps : List γ) (init : List α),
      (ps.foldl (fun acc p => acc.set (pos p) (val p)) init).length = init.length := by
  intro ps
  induction ps with
  | nil => intro init; rfl
  | cons p ps ih =>
    intro init
    rw [List.foldl_cons, ih, List.length_set]

theorem foldl_set_getElem_not_mem {α γ : Type} (pos : γ → Nat) (val : γ → α)
    (j : Nat) :
    ∀ (ps : List γ) (init : List α), (∀ p ∈ ps, pos p ≠ j) →
      (ps.foldl (fun acc p => acc.set (pos p) (val p)) init)[j]? = init[j]? := by
  intro ps
  induction ps with
  | nil => intro init _; rfl
  | cons p ps ih =>
    intro init hne
    rw [List.foldl_cons, ih _ (fun q hq => hne q (List.mem_cons_of_mem p hq)),
      List.getElem?_set_ne (hne p (List.mem_cons_self p ps))]

theorem foldl_set_getElem_mem {α γ : Type} (pos : γ → Nat) (val : γ → α) :
    ∀ (ps : List γ) (init : List α) (p : γ), p ∈ ps →
      (ps.map pos).Nodup → pos p < init.length →
      (ps.foldl (fun acc q => acc.set (pos q) (val q)) init)[pos p]? = some (val p) := by
  intro ps
  induction ps with
  | nil => intro init p hp; cases hp
  | cons q ps ih =>
    intro init p hp hnd hlt
    rw [List.map_cons, List.nodup_cons] at hnd
    rw [List.foldl_cons]
    rcases List.mem_cons.mp hp with rfl | hp'
    · rw [foldl_set_getElem_not_mem]
      · exact List.getElem?_set_self hlt
      · intro r hr hrp
        exact hnd.1 (hrp ▸ List.mem_map_of_mem pos hr)
    · exact ih _ p hp' hnd.2 (by rw [List.length_set]; exact hlt)

theorem flatten_map_singleton {α β : Type} (f : α → β) (l : List α) :
    (l.map (fun a => [f a])).flatten = l.map f := by
  induction l with
  | nil => rfl
  | cons x xs ih => simp only [List.map_cons, List.flatten_cons, ih, List.singleton_append]

theorem natToStr_inj_le_nine {i j : Nat} (hi : i ≤ 9) (hj : j ≤ 9)
    (h : natToStr i = natToStr j) : i = j := by
  rw [natToStr_of_lt_ten i (by omega), natToStr_of_lt_ten j (by omega)] at h
  simp only [List.cons.injEq, and_true] at h
  exact digitChar_inj_le_nine hi hj h

/-- The numeric key produced by `keyword_to_numeric` is, for keywords of
length at most 9, a permutation of the digit characters `1 .. n`. -/
theorem keyword_to_numeric_perm (key : List Char) (h9 : key.length ≤ 9) :
    (keyword_to_numeric key).Perm (digitsList key.length) := by
  set L := key.length with hLdef
  set indexed := key.enum.map (fun p => (pyUpper p.2, p.1)) with hindexed
  set sortedChars := sortAscBy (fun q : Char × Nat => q.1) indexed with hsortedChars
  set pairs := sortedChars.enumFrom 1 with hpairsdef
  set numeric := pairs.foldl (fun acc rp => acc.set rp.2.2 (natToStr rp.1))
    (List.replicate L ['0']) with hnumericdef
  have hktn : keyword_to_numeric key = numeric.flatten := rfl
  have hsc_perm : sortedChars.Perm indexed := sortAscBy_perm _ _
  have hsnd : indexed.map Prod.snd = List.range L := by
    rw [hindexed, List.map_map]
    exact List.enum_map_fst key
  have hsc_snd_perm : (sortedChars.map Prod.snd).Perm (List.range L) := by
    rw [← hsnd]
    exact hsc_perm.map _
  have hsc_len : sortedChars.length = L := by
    have h1 := hsc_perm.length_eq
    rw [hindexed, List.length_map, List.enum_length] at h1
    exact h1
  have hpairs_pos : pairs.map (fun rp => rp.2.2) = sortedChars.map Prod.snd := by
    have : pairs.map (fun rp => rp.2.2) = (pairs.map Prod.snd).map Prod.snd := by
      rw [List.map_map]; rfl
    rw [this, hpairsdef, List.enumFrom_map_snd]
  have hpos_nodup : (pairs.map (fun rp => rp.2.2)).Nodup := by
    rw [hpairs_pos]
    exact hsc_snd_perm.nodup_iff.mpr (List.nodup_range L)
  have hfst : pairs.map Prod.fst = List.range' 1 L := by
    rw [hpairsdef, List.enumFrom_map_fst, hsc_len]
  have hrank : ∀ rp ∈ pairs, 1 ≤ rp.1 ∧ rp.1 ≤ L := by
    intro rp hrp
    have : rp.1 ∈ List.range' 1 L := by
      rw [← hfst]
      exact List.mem_map_of_mem _ hrp
    rw [List.mem_range'] at this
    obtain ⟨i, hi, heq⟩ := this
    omega
  have hlen : numeric.length = L := by
    rw [hnumericdef]
    have := foldl_set_length (fun rp : Nat × Char × Nat => rp.2.2)
      (fun rp => natToStr rp.1) pairs (List.replicate L ['0'])
    rw [this, List.length_replicate]
  have hval : ∀ j, j < L → ∃ rp ∈ pairs, rp.2.2 = j ∧
      numeric[j]? = some (natToStr rp.1) := by
    intro j hj
    have hjmem : j ∈ pairs.map (fun rp => rp.2.2) := by
      rw [hpairs_pos]
      exact hsc_snd_perm.symm.subset (List.mem_range.mpr hj)
    obtain ⟨rp, hrp, hrpj⟩ := List.mem_map.mp hjmem
    refine ⟨rp, hrp, hrpj, ?_⟩
    have := foldl_set_getElem_mem (fun rp : Nat × Char × Nat => rp.2.2)
      (fun rp => natToStr rp.1) pairs (List.replicate L ['0']) rp hrp hpos_nodup
      (by rw [List.length_replicate]; show rp.2.2 < L; rw [hrpj]; exact hj)
    rw [hnumericdef, ← hrpj]
    exact this
  have hnodup : numeric.Nodup := by
    rw [List.nodup_iff_injective_get]
    intro i1 i2 hget
    by_contra hne
    have hne' : (i1 : Nat) ≠ (i2 : Nat) := fun hc => hne (Fin.ext hc)
    obtain ⟨rp1, hrp1, hj1, hv1⟩ := hval i1 (by rw [← hlen]; exact i1.2)
    obtain ⟨rp2, hrp2, hj2, hv2⟩ := hval i2 (by rw [← hlen]; exact i2.2)
    have hg1 : numeric.get i1 = natToStr rp1.1 := by
      have := List.getElem?_eq_getElem i1.2
      rw [hv1] at this
      simpa [List.get_eq_getElem] using this.symm
    have hg2 : numeric.get i2 = natToStr rp2.1 := by
      have := List.getElem?_eq_getElem i2.2
      rw [hv2] at this
      simpa [List.get_eq_getElem] using this.symm
    have hstr : natToStr rp1.1 = natToStr rp2.1 := by
      rw [← hg1, ← hg2, hget]
    have hr1 := hrank rp1 hrp1
    have hr2 := hrank rp2 hrp2
    have hrankeq : rp1.1 = rp2.1 :=
      natToStr_inj_le_nine (by omega) (by omega) hstr
    have hfst_nodup : (pairs.map Prod.fst).Nodup := by
      rw [hfst]
      exact List.nodup_range' 1 L
    have : rp1 = rp2 :=
      List.inj_on_of_nodup_map hfst_nodup hrp1 hrp2 hrankeq
    rw [this] at hj1
    exact hne' (hj1.symm.trans hj2 ▸ rfl)
  have hsubset : numeric ⊆ (List.range' 1 L).map natToStr := by
    intro c hc
    obtain ⟨i, hi, rfl⟩ := List.mem_iff_get.mp hc
    obtain ⟨rp, hrp, hj, hv⟩ := hval i (by rw [← hlen]; exact i.2)
    have hg : numeric.get i = natToStr rp.1 := by
      have := List.getElem?_eq_getElem i.2
      rw [hv] at this
      simpa [List.get_eq_getElem] using this.symm
    rw [hg]
    refine List.mem_map_of_mem _ ?_
    have := hrank rp hrp
    rw [List.mem_range']
    exact ⟨rp.1 - 1, by omega, by omega⟩
  have hrhs_len : ((List.range' 1 L).map natToStr).length = L := by
    rw [List.length_map, List.length_range']
  have hperm : numeric.Perm ((List.range' 1 L).map natToStr) := by
    refine (hnodup.subperm hsubset).perm_of_length_le ?_
    rw [hrhs_len, hlen]
  have hflat : ((List.range' 1 L).map natToStr).flatten = digitsList L := by
    have hcongr : (List.range' 1 L).map natToStr =
        (List.range' 1 L).map (fun i => [Nat.digitChar i]) := by
      refine List.map_congr_left ?_
      intro i hi
      rw [List.mem_range'] at hi
      obtain ⟨k, hk, rfl⟩ := hi
      exact natToStr_of_lt_ten _ (by omega)
    rw [hcongr, flatten_map_singleton]
    rfl
  rw [hktn, ← hflat]
  exact hperm.flatten

/-- The numeric key of `keyword_to_numeric` has the keyword's length when the
keyword has at most 9 characters. -/
theorem keyword_to_numeric_length (key : List Char) (h9 : key.length ≤ 9) :
    (keyword_to_numeric key).length = key.length := by
  rw [(keyword_to_numeric_perm key h9).length_eq, digitsList_length]

/-- For a valid key of length at most 9, `normalize_key` succeeds with a
permutation of the digit characters `1 .. n`, `n` the key length. -/
theorem normalize_key_perm (key : List Char) (hv : validate_key key = true)
    (h9 : key.length ≤ 9) :
    ∃ nk, normalize_key key = some nk ∧ nk.Perm (digitsList key.length) ∧
      nk.length = key.length := by
  rw [normalize_key, if_pos hv]
  by_cases hd : key.all pyIsDigit
  · rw [if_pos hd]
    refine ⟨key, rfl, ?_, rfl⟩
    rcases (validate_key_eq_true_iff key).mp hv with ⟨hne, hor⟩
    rcases hor with ⟨-, hperm⟩ | halpha
    · exact hperm
    · exfalso
      rw [List.all_eq_true] at hd
      cases key with
      | nil => exact hne rfl
      | cons c l =>
        have h1 := pyIsAlpha_not_digit (halpha c (List.mem_cons_self c l))
        rw [hd c (List.mem_cons_self c l)] at h1
        cases h1
  · rw [if_neg hd]
    exact ⟨_, rfl, keyword_to_numeric_perm key h9, keyword_to_numeric_length key h9⟩

/-! ## `strIndex` and monadic evaluation helpers -/

theorem singleton_isPrefixOf (c : Char) (l : List Char) :
    ([c].isPrefixOf l) = (l.head? == some c) := by
  cases l with
  | nil => rfl
  | cons x xs =>
    simp only [List.isPrefixOf, List.head?]
    rw [Bool.and_comm]
    simp [Bool.beq_comm]

theorem strIndex_cons (c x : Char) (xs : List Char) :
    strIndex (x :: xs) [c] =
      if c = x then some 0 else (strIndex xs [c]).map (· + 1) := by
  rw [strIndex, List.length_cons, List.range_succ_eq_map, List.find?_cons]
  have h0 : ([c].isPrefixOf (List.drop 0 (x :: xs))) = (c == x) := by
    simp [List.isPrefixOf]
  rw [h0]
  by_cases h : c = x
  · simp [h]
  · have hbx : (c == x) = false := by simp [h]
    rw [hbx, if_neg h]
    show List.find? (fun i => [c].isPrefixOf (List.drop i (x :: xs)))
        (List.map Nat.succ (List.range (xs.length + 1))) = _
    rw [List.find?_map]
    show Option.map Nat.succ
      (List.find? (fun i => [c].isPrefixOf (xs.drop i)) (List.range (xs.length + 1))) = _
    rw [← strIndex]

theorem strIndex_singleton {hay : List Char} {c : Char} (h : c ∈ hay) :
    strIndex hay [c] = some (hay.indexOf c) := by
  induction hay with
  | nil => cases h
  | cons x xs ih =>
    rw [strIndex_cons]
    by_cases hcx : c = x
    · subst hcx
      rw [if_pos rfl, List.indexOf_cons_self]
    · rw [if_neg hcx]
      have hmem : c ∈ xs := by
        rcases List.mem_cons.mp h with rfl | hm
        · exact absurd rfl hcx
        · exact hm
      rw [ih hmem, List.indexOf_cons_ne _ (fun hc => hcx hc.symm)]
      rfl

theorem mapM_option_eq_map {α β : Type} (f : α → Option β) (g : α → β) :
    ∀ (l : List α), (∀ a ∈ l, f a = some (g a)) → l.mapM f = some (l.map g) := by
  intro l
  induction l with
  | nil => intro _; rfl
  | cons a l ih =>
    intro h
    rw [List.mapM_cons, h a (List.mem_cons_self a l),
      ih (fun b hb => h b (List.mem_cons_of_mem a hb))]
    rfl

theorem foldlM_option_eq_foldl {σ α : Type} (f : σ → α → Option σ) (g : σ → α → σ) :
    ∀ (l : List α) (s : σ), (∀ s' a, a ∈ l → f s' a = some (g s' a)) →
      l.foldlM f s = some (l.foldl g s) := by
  intro l
  induction l with
  | nil => intro s _; rfl
  | cons a l ih =>
    intro s h
    rw [List.foldlM_cons, h s a (List.mem_cons_self a l)]
    show (l.foldlM f (g s a)) = _
    rw [ih (g s a) (fun s' b hb => h s' b (List.mem_cons_of_mem a hb)), List.foldl_cons]

/-! ## Digit-permutation keys -/

/-- A permutation of the digit characters `1 .. n` (`1 ≤ n ≤ 9`) is a valid,
all-digit key that `normalize_key` passes through unchanged. -/
theorem perm_digits_normalize {nk : List Char} {n : Nat} (h1 : 1 ≤ n)
    (h9 : n ≤ 9) (hperm : nk.Perm (digitsList n)) :
    validate_key nk = true ∧ nk.all pyIsDigit = true ∧
      normalize_key nk = some nk := by
  have hlen : nk.length = n := hperm.length_eq.trans (digitsList_length n)
  have hdig : ∀ c ∈ nk, pyIsDigit c = true := by
    intro c hc
    obtain ⟨i, hi1, hin, rfl⟩ := mem_digitsList.mp (hperm.subset hc)
    exact pyIsDigit_digitChar i hi1 (by omega)
  have hne : nk ≠ [] := by
    intro hc
    rw [hc] at hlen
    simp at hlen
    omega
  have hv : validate_key nk = true :=
    (validate_key_eq_true_iff nk).mpr ⟨hne, Or.inl ⟨hdig, by rw [hlen]; exact hperm⟩⟩
  have hall : nk.all pyIsDigit = true := List.all_eq_true.mpr hdig
  refine ⟨hv, hall, ?_⟩
  rw [normalize_key, if_pos hv, if_pos hall]

/-- **C6.** `validate_key(key)` returns true iff `key` is non-empty and
either every character is a digit and the characters are exactly the digits
of `1 .. len(key)` — i.e. a permutation of `1..n` — or every character is
alphabetic. -/
theorem c6_validate_key_characterization (key : List Char) :
    validate_key key = true ↔
      key ≠ [] ∧
        (((∀ c ∈ key, pyIsDigit c = true) ∧ key.Perm (digitsList key.length)) ∨
          (∀ c ∈ key, pyIsAlpha c = true)) :=
  validate_key_eq_true_iff key

/-- Idempotence of key normalization for valid keys of length at most 9. -/
theorem normalize_key_idem (key : List Char) (hv : validate_key key = true)
    (h9 : key.length ≤ 9) :
    ∃ nk, normalize_key key = some nk ∧ normalize_key nk = some nk := by
  obtain ⟨nk, hnk, hperm, hlen⟩ := normalize_key_perm key hv h9
  have hne : key ≠ [] := ((validate_key_eq_true_iff key).mp hv).1
  have h1 : 1 ≤ key.length := by
    cases key with
    | nil => exact absurd rfl hne
    | cons a l => simp
  exact ⟨nk, hnk, (perm_digits_normalize h1 h9 hperm).2.2⟩

/-- **C3 (amended).** Key normalization is idempotent for every valid key of
length at most 9: `normalize_key key` succeeds with a numeric key `nk`, and
`normalize_key nk` succeeds and returns `nk` again. -/
theorem c3_normalize_key_idempotent (key : List Char)
    (hv : validate_key key = true) (h9 : key.length ≤ 9) :
    ∃ nk, normalize_key key = some nk ∧ normalize_key nk = some nk :=
  normalize_key_idem key hv h9

/-- **C3 (witness).** The amended idempotence at the keyword `KEY`. -/
theorem c3_normalize_key_idempotent_witness :
    ∃ nk, normalize_key "KEY".toList = some nk ∧ normalize_key nk = some nk :=
  c3_normalize_key_idempotent "KEY".toList (by decide) (by decide)

/-- **C3 (counterexample).** The claim fails as stated: the 10-letter keyword
`ABCDEFGHIJ` is valid and normalizes to the string `12345678910`, on which
`normalize_key` raises (`none`) instead of succeeding. -/
theorem c3_normalize_key_not_idempotent :
    validate_key "ABCDEFGHIJ".toList = true ∧
      normalize_key "ABCDEFGHIJ".toList = some "12345678910".toList ∧
      normalize_key "12345678910".toList = none :=
  ⟨by decide, by decide, by decide⟩

/-! ## Empty-text behaviour of `encrypt` and `decrypt` -/

theorem pyCeilDiv_zero {n : Nat} (h : 1 ≤ n) : pyCeilDiv 0 n = 0 := by
  unfold pyCeilDiv
  exact Nat.div_eq_of_lt (by omega)

theorem flatten_map_nil {α β : Type} (l : List α) :
    (l.map (fun _ => ([] : List β))).flatten = [] := by
  induction l with
  | nil => rfl
  | cons x xs ih => simp [ih]

theorem foldl_const {σ α : Type} (s : σ) (l : List α) :
    l.foldl (fun st _ => st) s = s := by
  induction l generalizing s with
  | nil => rfl
  | cons a l ih => exact ih s

theorem strIndex_digits {nk : List Char} {n : Nat} (h9 : n ≤ 9)
    (hperm : nk.Perm (digitsList n)) :
    ∀ j ∈ List.range' 1 n, strIndex nk (natToStr j) =
      some (nk.indexOf (Nat.digitChar j)) := by
  intro j hj
  rw [List.mem_range'] at hj
  obtain ⟨i, hi, rfl⟩ := hj
  rw [natToStr_of_lt_ten _ (by omega)]
  exact strIndex_singleton
    (hperm.symm.subset (mem_digitsList.mpr ⟨1 + 1 * i, by omega, by omega, rfl⟩))

theorem encrypt_empty (key : List Char) (hv : validate_key key = true)
    (h9 : key.length ≤ 9) (b : Bool) :
    encrypt [] key b = some [] := by
  obtain ⟨nk, hnk, hperm, hlen⟩ := normalize_key_perm key hv h9
  have hne : key ≠ [] := ((validate_key_eq_true_iff key).mp hv).1
  have h1 : 1 ≤ key.length := by
    cases key with
    | nil => exact absurd rfl hne
    | cons a l => simp
  have hsi := @strIndex_digits nk key.length h9 hperm
  have hn : nk.length = key.length := hlen
  simp only [encrypt, hnk, Option.bind_eq_bind, Option.pure_def,
    Option.some_bind, List.length_nil, List.filter_nil,
    ite_self, hn, pyCeilDiv_zero h1, List.range_zero, List.map_nil,
    Nat.zero_mul, Nat.sub_zero, List.replicate_zero, List.nil_append]
  have hmap := mapM_option_eq_map
    (fun colNum => (strIndex nk (natToStr colNum)).map
      (fun _ : Nat => ([] : List Char)))
    (fun _ => []) (List.range' 1 key.length)
    (fun j hj => by simp [hsi j hj])
  rw [hmap, Option.some_bind, flatten_map_nil]

theorem decrypt_empty (key : List Char) (hv : validate_key key = true)
    (h9 : key.length ≤ 9) :
    decrypt [] key = some [] := by
  obtain ⟨nk, hnk, hperm, hlen⟩ := normalize_key_perm key hv h9
  have hne : key ≠ [] := ((validate_key_eq_true_iff key).mp hv).1
  have h1 : 1 ≤ key.length := by
    cases key with
    | nil => exact absurd rfl hne
    | cons a l => simp
  have hsi := @strIndex_digits nk key.length h9 hperm
  have hn : nk.length = key.length := hlen
  simp only [decrypt, hnk, Option.bind_eq_bind, Option.pure_def,
    Option.some_bind, List.length_nil, hn,
    pyCeilDiv_zero h1, List.range_zero, List.foldl_nil, List.map_nil]
  have hfold := foldlM_option_eq_foldl
    (fun (st : (Nat → Nat → List Char) × Nat) colNum =>
      (strIndex nk (natToStr colNum)).map (fun _ => st))
    (fun st _ => st) (List.range' 1 key.length) ((fun _ _ => []), 0)
    (fun st' j hj => by simp [hsi j hj])
  rw [hfold, Option.some_bind]
  rfl

/-- **C10 (amended).** For every valid key of length at most 9 and either
flag value, encrypting the empty string yields the empty string and
decrypting the empty string yields the empty string, with no error. -/
theorem c10_empty_text_accepted (key : List Char) (hv : validate_key key = true)
    (h9 : key.length ≤ 9) (b : Bool) :
    encrypt [] key b = some [] ∧ decrypt [] key = some [] :=
  ⟨encrypt_empty key hv h9 b, decrypt_empty key hv h9⟩

/-- **C10 (witness).** The amended claim at the keyword `ABC`. -/
theorem c10_empty_text_accepted_witness :
    encrypt [] "ABC".toList true = some [] ∧ decrypt [] "ABC".toList = some [] :=
  c10_empty_text_accepted "ABC".toList (by decide) (by decide) true

/-- **C10 (counterexample).** As stated the claim fails: the 10-letter
keyword `ABCDEFGHIJ` is valid, yet both `encrypt("", k, False)` and
`decrypt("", k)` raise (the column lookup `numeric_key.index(str(col_num))`
fails on the malformed 11-character numeric key). -/
theorem c10_empty_text_error :
    validate_key "ABCDEFGHIJ".toList = true ∧
      encrypt [] "ABCDEFGHIJ".toList false = none ∧
      decrypt [] "ABCDEFGHIJ".toList = none :=
  ⟨by decide, by decide, by decide⟩

/-! ## C7: the combined fitness function -/

/-- **C7.** `score_with_dictionary text d` equals
`min(score_text(text) * (1 + d * 0.5), 150)` for every input, never exceeds
`150`, and is a total function with value `0` on the empty string (with any
dictionary score). -/
theorem c7_score_with_dictionary_formula (text : List Char) (d : ℚ) :
    score_with_dictionary text d = min (score_text text * (1 + d * 0.5)) 150 ∧
      score_with_dictionary text d ≤ 150 ∧
      score_with_dictionary [] d = 0 := by
  refine ⟨rfl, min_le_right _ _, ?_⟩
  have h0 : score_text [] = 0 := rfl
  rw [score_with_dictionary, h0, zero_mul]
  exact min_eq_left (by norm_num)

/-! ## C9: word finding -/

theorem common_words_length_le_nine : ∀ w ∈ COMMON_WORDS, w.length ≤ 9 := by
  decide

/-- **C9.** `find_words_in_text text 2` contains exactly the triples
`(w, i, j)` for which `w` is the uppercased slice `text[i:j]`, `w` is in the
common-word set, and `2 ≤ j - i ≤ 15`; one triple for each such occurrence.
(The scan caps the lookahead at `j < i + 15`; since no word of the set is
longer than 9 characters, the cap never excludes a dictionary hit.) -/
theorem c9_find_words_characterization (text w : List Char) (i j : Nat) :
    (w, i, j) ∈ find_words_in_text text 2 ↔
      j ≤ text.length ∧ i + 2 ≤ j ∧ j - i ≤ 15 ∧
        w = ((text.map pyUpper).drop i).take (j - i) ∧ w ∈ COMMON_WORDS := by
  have htlen : (text.map pyUpper).length = text.length := List.length_map _ _
  rw [find_words_in_text]
  rw [List.mem_flatMap]
  constructor
  · rintro ⟨i', hi', hmem⟩
    rw [List.mem_filterMap] at hmem
    obtain ⟨j', hj', heq⟩ := hmem
    rw [List.mem_range] at hi'
    rw [List.mem_range'] at hj'
    obtain ⟨k, hk, rfl⟩ := hj'
    by_cases hc : COMMON_WORDS.contains (((text.map pyUpper).drop i').take (i' + 2 + 1 * k - i'))
    · rw [if_pos hc] at heq
      obtain ⟨rfl, rfl, rfl⟩ : w = ((text.map pyUpper).drop i').take (i' + 2 + 1 * k - i') ∧
          i = i' ∧ j = i' + 2 + 1 * k := by
        injection heq with h1
        injection h1 with h2 h3
        injection h3 with h4 h5
        exact ⟨h2.symm, h4.symm, h5.symm⟩
      have hmem := List.elem_iff.mp hc
      refine ⟨?_, by omega, by omega, rfl, hmem⟩
      rw [htlen] at hk
      have hmin : (i + 15) ⊓ (text.length + 1) ≤ text.length + 1 :=
        min_le_right _ _
      omega
    · rw [if_neg hc] at heq
      cases heq
  · rintro ⟨hjlen, hij, hji, hw, hmem⟩
    have hwlen : w.length ≤ 9 := common_words_length_le_nine w hmem
    have hslice : (((text.map pyUpper).drop i).take (j - i)).length = j - i := by
      rw [List.length_take, List.length_drop, htlen]
      omega
    have hji9 : j - i ≤ 9 := by
      rw [hw] at hwlen
      rw [hslice] at hwlen
      exact hwlen
    refine ⟨i, List.mem_range.mpr (by rw [htlen]; omega), ?_⟩
    rw [List.mem_filterMap]
    refine ⟨j, ?_, ?_⟩
    · rw [List.mem_range']
      refine ⟨j - (i + 2), ?_, by omega⟩
      have hlt : j < min (i + 15) (text.length + 1) :=
        Nat.lt_min.mpr ⟨by omega, by omega⟩
      rw [htlen]
      omega
    · rw [if_pos (List.elem_iff.mpr (hw ▸ hmem))]
      rw [hw]

/-! ## C8: suggested key lengths -/

/-- **C8.** The `suggested_key_lengths` of `analyze_ciphertext` are the first
5 entries of a list `S` that enumerates all trial lengths of
`range(2, min(length // 2, 15))`, ordered ascending by the distance
`|icAverage - 0.067|` of the average per-column Index of Coincidence from the
English IC, with ties broken ascending by trial length — i.e. exactly the 5
trial lengths closest to `0.067` in that order. -/
theorem c8_suggested_key_lengths (ciphertext : List Char) :
    ∃ S : List Nat,
      (analyze_ciphertext ciphertext).suggested_key_lengths = S.take 5 ∧
      S.Perm (trial_key_lengths ciphertext) ∧
      S.Pairwise (fun a b =>
        |icAverage ciphertext a - 0.067| < |icAverage ciphertext b - 0.067| ∨
        (|icAverage ciphertext a - 0.067| = |icAverage ciphertext b - 0.067| ∧
          a < b)) := by
  refine ⟨sortAscBy (fun kl => |icAverage ciphertext kl - 0.067|)
      (trial_key_lengths ciphertext), rfl, sortAscBy_perm _ _, ?_⟩
  refine sortAscBy_pairwise _ (· < ·) _ ?_
  have := List.pairwise_lt_range' 2 (min (ciphertext.length / 2) 15 - 2) 1
    (by norm_num)
  simpa [trial_key_lengths] using this

/-! ## Arithmetic and list utilities for the round trip -/

theorem le_pyCeilDiv_mul {L n : Nat} (h : 1 ≤ n) : L ≤ pyCeilDiv L n * n := by
  unfold pyCeilDiv
  have hdm := Nat.div_add_mod (L + n - 1) n
  have hlt : (L + n - 1) % n < n := Nat.mod_lt _ (by omega)
  rw [Nat.mul_comm]
  omega

theorem pyCeilDiv_mul_self {rows n : Nat} (h : 1 ≤ n) :
    pyCeilDiv (rows * n) n = rows := by
  unfold pyCeilDiv
  rw [show rows * n + n - 1 = n * rows + (n - 1) by ring_nf; omega]
  rw [Nat.mul_add_div (by omega)]
  rw [Nat.div_eq_of_lt (by omega)]
  omega

theorem map_range_getD {α : Type} (f : Nat → α) (n c : Nat) (d : α) :
    ((List.range n).map f).getD c d = if c < n then f c else d := by
  rw [List.getD_eq_getElem?_getD, List.getElem?_map]
  by_cases h : c < n
  · rw [List.getElem?_range h, if_pos h]
    rfl
  · rw [List.getElem?_eq_none (by rw [List.length_range]; omega), if_neg h]
    rfl

theorem map_range_getD_take {α : Type} {l : List α} {n : Nat}
    (d : α) (h : n ≤ l.length) :
    (List.range n).map (fun c => l.getD c d) = l.take n := by
  refine List.ext_getElem? ?_
  intro i
  rw [List.getElem?_map, List.getElem?_take]
  by_cases hi : i < n
  · rw [List.getElem?_range hi, Option.map_some', if_pos hi]
    have hil : i < l.length := lt_of_lt_of_le hi h
    rw [List.getD_eq_getElem?_getD, List.getElem?_eq_getElem hil]
    rfl
  · rw [List.getElem?_eq_none (by rw [List.length_range]; omega), if_neg hi]
    rfl

theorem getD_drop {α : Type} (l : List α) (n i : Nat) (d : α) :
    (l.drop n).getD i d = l.getD (n + i) d := by
  rw [List.getD_eq_getElem?_getD, List.getD_eq_getElem?_getD, List.getElem?_drop]

theorem flatten_chunks {α : Type} (d : α) :
    ∀ (rows : Nat) {n : Nat} (l : List α), l.length = rows * n →
      ((List.range rows).map (fun r =>
        (List.range n).map (fun c => l.getD (r * n + c) d))).flatten = l := by
  intro rows
  induction rows with
  | zero =>
    intro n l hl
    simp at hl
    rw [hl]
    rfl
  | succ rows ih =>
    intro n l hl
    rw [List.range_succ_eq_map, List.map_cons, List.flatten_cons, List.map_map]
    have hrow0 : (List.range n).map (fun c => l.getD (0 * n + c) d) = l.take n := by
      have : (List.range n).map (fun c => l.getD (0 * n + c) d) =
          (List.range n).map (fun c => l.getD c d) := by
        refine List.map_congr_left ?_
        intro c _
        rw [Nat.zero_mul, Nat.zero_add]
      rw [this]
      exact map_range_getD_take d
        (by rw [hl]; exact Nat.le_mul_of_pos_left n (Nat.succ_pos rows))
    have hrest : (List.range rows).map
        ((fun r => (List.range n).map (fun c => l.getD (r * n + c) d)) ∘ Nat.succ) =
        (List.range rows).map (fun r => (List.range n).map
          (fun c => (l.drop n).getD (r * n + c) d)) := by
      refine List.map_congr_left ?_
      intro r _
      show (List.range n).map (fun c => l.getD (Nat.succ r * n + c) d) = _
      refine List.map_congr_left ?_
      intro c _
      rw [getD_drop]
      congr 1
      rw [Nat.succ_mul]
      ring
    have hl' : l.length = rows * n + n := by rw [hl, Nat.succ_mul]
    rw [hrow0, hrest, ih (l.drop n) (by rw [List.length_drop, hl']; omega),
      List.take_append_drop]

theorem flatten_uniform_getD {α : Type} (d : α) (rows : Nat) :
    ∀ (L : List (List α)), (∀ l ∈ L, l.length = rows) →
      ∀ (q r : Nat), q < L.length → r < rows →
        L.flatten.getD (q * rows + r) d = (L.getD q []).getD r d := by
  intro L
  induction L with
  | nil => intro _ q r hq _; cases hq
  | cons l0 rest ih =>
    intro hlen q r hq hr
    rw [List.flatten_cons]
    cases q with
    | zero =>
      rw [Nat.zero_mul, Nat.zero_add]
      rw [List.getD_eq_getElem?_getD, List.getElem?_append_left
        (by rw [hlen l0 (List.mem_cons_self _ _)]; exact hr)]
      rw [List.getD_cons_zero, List.getD_eq_getElem?_getD]
    | succ q =>
      have hl0 : l0.length = rows := hlen l0 (List.mem_cons_self _ _)
      rw [List.getD_eq_getElem?_getD, List.getElem?_append_right
        (by rw [hl0, Nat.succ_mul]; omega)]
      have harith : Nat.succ q * rows + r - l0.length = q * rows + r := by
        rw [hl0, Nat.succ_mul]
        omega
      rw [harith]
      have := ih (fun l hl => hlen l (List.mem_cons_of_mem _ hl)) q r
        (Nat.lt_of_succ_lt_succ hq) hr
      rw [List.getD_eq_getElem?_getD] at this
      rw [this]
      rw [List.getD_cons_succ]

theorem rstrip_append_replicate {p : List Char} (h : 'X' ∉ p) (k : Nat) :
    rstrip 'X' (p ++ List.replicate k 'X') = p := by
  rw [rstrip, List.reverse_append, List.reverse_replicate]
  have hdropRep : ∀ m (l : List Char),
      (List.replicate m 'X' ++ l).dropWhile (fun c => c == 'X') =
        l.dropWhile (fun c => c == 'X') := by
    intro m
    induction m with
    | zero => intro l; rfl
    | succ m ih =>
      intro l
      rw [List.replicate_succ, List.cons_append, List.dropWhile_cons_of_pos (by simp)]
      exact ih l
  rw [hdropRep]
  cases hrev : p.reverse with
  | nil =>
    have : p = [] := by
      have := congrArg List.reverse hrev
      rwa [List.reverse_reverse] at this
    rw [this]
    rfl
  | cons a as =>
    have ha : a ∈ p := by
      have : a ∈ p.reverse := by rw [hrev]; exact List.mem_cons_self a as
      exact List.mem_reverse.mp this
    have hax : ¬ (a == 'X') = true := by
      simp only [beq_iff_eq]
      intro hc
      exact h (hc ▸ ha)
    rw [List.dropWhile_cons]
    rw [if_neg hax, ← hrev, List.reverse_reverse]

/-! ## Column positions of a digit-permutation key -/

theorem indexOf_digitChar_lt {nk : List Char} {n : Nat}
    (hperm : nk.Perm (digitsList n)) {j : Nat} (h1 : 1 ≤ j) (hn : j ≤ n) :
    nk.indexOf (Nat.digitChar j) < nk.length :=
  List.indexOf_lt_length.mpr
    (hperm.symm.subset (mem_digitsList.mpr ⟨j, h1, hn, rfl⟩))

theorem indexOf_digitChar_inj {nk : List Char} {n : Nat}
    (hperm : nk.Perm (digitsList n)) (h9 : n ≤ 9) :
    ∀ j1 j2, 1 ≤ j1 → j1 ≤ n → 1 ≤ j2 → j2 ≤ n →
      nk.indexOf (Nat.digitChar j1) = nk.indexOf (Nat.digitChar j2) → j1 = j2 := by
  intro j1 j2 h11 h1n h21 h2n heq
  have hm1 : Nat.digitChar j1 ∈ nk :=
    hperm.symm.subset (mem_digitsList.mpr ⟨j1, h11, h1n, rfl⟩)
  have hm2 : Nat.digitChar j2 ∈ nk :=
    hperm.symm.subset (mem_digitsList.mpr ⟨j2, h21, h2n, rfl⟩)
  have hg1 := List.getElem_indexOf (List.indexOf_lt_length.mpr hm1)
  have hg2 := List.getElem_indexOf (List.indexOf_lt_length.mpr hm2)
  have : Nat.digitChar j1 = Nat.digitChar j2 := by
    rw [← hg1, ← hg2]
    congr 1
  exact digitChar_inj_le_nine (by omega) (by omega) this

theorem indexOf_digitChar_surj {nk : List Char} {n : Nat}
    (hperm : nk.Perm (digitsList n)) (h9 : n ≤ 9) :
    ∀ c, c < n → ∃ j, 1 ≤ j ∧ j ≤ n ∧ nk.indexOf (Nat.digitChar j) = c := by
  have hlen : nk.length = n := hperm.length_eq.trans (digitsList_length n)
  set l := (List.range' 1 n).map (fun j => nk.indexOf (Nat.digitChar j)) with hl
  have hnodup : l.Nodup := by
    refine List.Nodup.map_on ?_ (List.nodup_range' 1 n)
    intro x hx y hy hxy
    rw [List.mem_range'] at hx hy
    obtain ⟨i, hi, rfl⟩ := hx
    obtain ⟨k, hk, rfl⟩ := hy
    exact indexOf_digitChar_inj hperm h9 _ _ (by omega) (by omega) (by omega)
      (by omega) hxy
  have hsub : l ⊆ List.range n := by
    intro c hc
    rw [hl] at hc
    obtain ⟨j, hj, rfl⟩ := List.mem_map.mp hc
    rw [List.mem_range'] at hj
    obtain ⟨i, hi, rfl⟩ := hj
    rw [List.mem_range, ← hlen]
    exact indexOf_digitChar_lt hperm (by omega) (by omega)
  have hpermr : l.Perm (List.range n) := by
    refine (hnodup.subperm hsub).perm_of_length_le ?_
    rw [hl, List.length_range, List.length_map, List.length_range']
  intro c hc
  have : c ∈ l := hpermr.symm.subset (List.mem_range.mpr hc)
  rw [hl] at this
  obtain ⟨j, hj, hjc⟩ := List.mem_map.mp this
  rw [List.mem_range'] at hj
  obtain ⟨i, hi, rfl⟩ := hj
  exact ⟨1 + 1 * i, by omega, by omega, hjc⟩

theorem map_range'_getD {α : Type} (f : Nat → α) (n q : Nat) (d : α) :
    ((List.range' 1 n).map f).getD q d = if q < n then f (1 + q) else d := by
  rw [List.getD_eq_getElem?_getD, List.getElem?_map]
  by_cases h : q < n
  · rw [List.getElem?_range' 1 1 h, if_pos h, Option.map_some']
    rw [Nat.one_mul]
    rfl
  · rw [List.getElem?_eq_none (by rw [List.length_range']; omega), if_neg h]
    rfl

/-! ## The closed form of `encrypt` for valid keys -/

theorem encrypt_eq_cols {key nk : List Char} {b : Bool}
    (hnk : normalize_key key = some nk)
    (hperm : nk.Perm (digitsList nk.length)) (h9 : nk.length ≤ 9)
    (p p' : List Char) (rows : Nat)
    (hp' : p' = if b then p else p.filter (fun c => c != ' '))
    (hrows : rows = pyCeilDiv p'.length nk.length) :
    encrypt p key b = some
      (((List.range' 1 nk.length).map (fun j =>
        (List.range rows).map (fun r =>
          (p' ++ List.replicate (rows * nk.length - p'.length) 'X').getD
            (r * nk.length + nk.indexOf (Nat.digitChar j)) 'X'))).flatten) := by
  have hsi := @strIndex_digits nk nk.length h9 hperm
  simp only [encrypt, hnk, Option.bind_eq_bind, Option.some_bind, Option.pure_def]
  rw [← hp', ← hrows]
  set padded := p' ++ List.replicate (rows * nk.length - p'.length) 'X' with hpadded
  have hpw : ∀ j ∈ List.range' 1 nk.length,
      (strIndex nk (natToStr j)).map (fun colIdx =>
        ((List.range rows).map (fun i =>
          (List.range nk.length).map (fun jj => padded.getD (i * nk.length + jj) 'X'))).map
          (fun row => row.getD colIdx 'X')) =
      some ((List.range rows).map (fun r =>
        padded.getD (r * nk.length + nk.indexOf (Nat.digitChar j)) 'X')) := by
    intro j hj
    rw [List.mem_range'] at hj
    obtain ⟨i, hi, rfl⟩ := hj
    rw [hsi _ (by rw [List.mem_range']; exact ⟨i, hi, rfl⟩), Option.map_some']
    rw [List.map_map]
    congr 1
    refine List.map_congr_left ?_
    intro r _
    show ((List.range nk.length).map
      (fun jj => padded.getD (r * nk.length + jj) 'X')).getD
        (nk.indexOf (Nat.digitChar (1 + 1 * i))) 'X' = _
    have hlt : nk.indexOf (Nat.digitChar (1 + 1 * i)) < nk.length :=
      indexOf_digitChar_lt hperm (by omega) (by omega)
    rw [map_range_getD, if_pos hlt]
  rw [mapM_option_eq_map _ _ _ hpw, Option.some_bind]

/-! ## The decryption fill -/

theorem fill_one_col (ct : List Char) (c : Nat) :
    ∀ (cnt s ci : Nat) (mat : Nat → Nat → List Char), ci + cnt ≤ ct.length →
      (List.range' s cnt).foldl (fun st2 rowIdx =>
        if st2.2 < ct.length then
          (setCell st2.1 rowIdx c (ct.getD st2.2 'X'), st2.2 + 1) else st2)
        (mat, ci) =
      ((fun r' c' => if c' = c ∧ s ≤ r' ∧ r' < s + cnt
          then [ct.getD (ci + (r' - s)) 'X'] else mat r' c'), ci + cnt) := by
  intro cnt
  induction cnt with
  | zero =>
    intro s ci mat h
    show (mat, ci) = _
    have hfun : (fun r' c' => if c' = c ∧ s ≤ r' ∧ r' < s + 0
        then [ct.getD (ci + (r' - s)) 'X'] else mat r' c') = mat := by
      funext r' c'
      rw [if_neg (by omega)]
    rw [hfun]
    rfl
  | succ cnt ih =>
    intro s ci mat h
    rw [List.range'_succ, List.foldl_cons, if_pos (by omega)]
    rw [ih (s + 1) (ci + 1) _ (by omega)]
    rw [Prod.mk.injEq]
    refine ⟨?_, by omega⟩
    funext r' c'
    by_cases h1 : c' = c ∧ s + 1 ≤ r' ∧ r' < s + 1 + cnt
    · rw [if_pos h1, if_pos (by omega)]
      have : ci + 1 + (r' - (s + 1)) = ci + (r' - s) := by omega
      rw [this]
    · rw [if_neg h1]
      simp only [setCell]
      by_cases h2 : r' = s ∧ c' = c
      · rw [if_pos h2, if_pos (by omega)]
        have : ci + (r' - s) = ci := by omega
        rw [this]
      · rw [if_neg h2, if_neg (by omega)]

theorem fill_fold_char (ct : List Char) (rows : Nat) (σ : Nat → Nat)
    (n : Nat) (hinj : ∀ j1 j2, 1 ≤ j1 → j1 ≤ n → 1 ≤ j2 → j2 ≤ n →
      σ j1 = σ j2 → j1 = j2) :
    ∀ m, m ≤ n → m * rows ≤ ct.length →
      ∃ st' : (Nat → Nat → List Char) × Nat,
        (List.range' 1 m).foldl (fun st colNum =>
          (List.range rows).foldl (fun st2 rowIdx =>
            if st2.2 < ct.length then
              (setCell st2.1 rowIdx (σ colNum) (ct.getD st2.2 'X'), st2.2 + 1)
            else st2) st) ((fun _ _ => []), 0) = st' ∧
        st'.2 = m * rows ∧
        (∀ j r, 1 ≤ j → j ≤ m → r < rows →
          st'.1 r (σ j) = [ct.getD ((j - 1) * rows + r) 'X']) ∧
        (∀ r c, (∀ j, 1 ≤ j → j ≤ m → σ j = c → rows ≤ r) → st'.1 r c = []) := by
  intro m
  induction m with
  | zero =>
    intro _ _
    refine ⟨((fun _ _ => []), 0), rfl, by omega, ?_, ?_⟩
    · intro j r h1 h0 _
      omega
    · intro r c _
      rfl
  | succ m ih =>
    intro hmn hbound
    have hsm : (m + 1) * rows = m * rows + rows := by ring
    have hm1 : 1 + 1 * m = m + 1 := by omega
    obtain ⟨stm, hstm, hcnt, ha, hb⟩ := ih (by omega) (by omega)
    rw [List.range'_concat, List.foldl_append, List.foldl_cons, List.foldl_nil,
      hstm, hm1]
    have hmat : stm = (stm.1, stm.2) := rfl
    rw [hmat, hcnt, List.range_eq_range']
    rw [fill_one_col ct (σ (m + 1)) rows 0 (m * rows) stm.1 (by omega)]
    refine ⟨_, rfl, by dsimp only; omega, ?_, ?_⟩
    · intro j r hj1 hjm hr
      dsimp only
      by_cases hj : j = m + 1
      · subst hj
        have hcond : σ (m + 1) = σ (m + 1) ∧ 0 ≤ r ∧ r < 0 + rows :=
          ⟨rfl, by omega, by omega⟩
        rw [if_pos hcond]
        have harith : m * rows + (r - 0) = (m + 1 - 1) * rows + r := by
          rw [Nat.add_sub_cancel, Nat.sub_zero]
        rw [harith]
      · have hne : σ j ≠ σ (m + 1) := fun hc =>
          hj (hinj j (m + 1) hj1 (by omega) (by omega) (by omega) hc)
        have hcond : ¬ (σ j = σ (m + 1) ∧ 0 ≤ r ∧ r < 0 + rows) :=
          fun hcon => hne hcon.1
        rw [if_neg hcond]
        exact ha j r hj1 (by omega) hr
    · intro r c hall
      dsimp only
      by_cases hc : c = σ (m + 1)
      · have hge := hall (m + 1) (by omega) (by omega) hc.symm
        have hcond : ¬ (c = σ (m + 1) ∧ 0 ≤ r ∧ r < 0 + rows) := by omega
        rw [if_neg hcond]
        exact hb r c (fun j hj1 hjm hjc => hall j hj1 (by omega) hjc)
      · have hcond : ¬ (c = σ (m + 1) ∧ 0 ≤ r ∧ r < 0 + rows) :=
          fun hcon => hc hcon.1
        rw [if_neg hcond]
        exact hb r c (fun j hj1 hjm hjc => hall j hj1 (by omega) hjc)

theorem decrypt_eq_of_cols {key nk ct : List Char} {rows : Nat}
    (hnk : normalize_key key = some nk) (hperm : nk.Perm (digitsList nk.length))
    (h9 : nk.length ≤ 9) (h1 : 1 ≤ nk.length)
    (hct : ct.length = rows * nk.length) (f : Nat → Nat → Char)
    (hcols : ∀ j r, 1 ≤ j → j ≤ nk.length → r < rows →
      ct.getD ((j - 1) * rows + r) 'X' = f r (nk.indexOf (Nat.digitChar j))) :
    decrypt ct key = some (rstrip 'X'
      (((List.range rows).map (fun r =>
        (List.range nk.length).map (fun c => f r c))).flatten)) := by
  have hsi := @strIndex_digits nk nk.length h9 hperm
  simp only [decrypt, hnk, Option.bind_eq_bind, Option.some_bind, Option.pure_def]
  have hrows : pyCeilDiv ct.length nk.length = rows := by
    rw [hct]
    exact pyCeilDiv_mul_self h1
  rw [hrows]
  have hfold := foldlM_option_eq_foldl
    (fun (st : (Nat → Nat → List Char) × Nat) colNum =>
      (strIndex nk (natToStr colNum)).map (fun colIdx =>
        (List.range rows).foldl (fun st2 rowIdx =>
          if st2.2 < ct.length then
            (setCell st2.1 rowIdx colIdx (ct.getD st2.2 'X'), st2.2 + 1)
          else st2) st))
    (fun st colNum => (List.range rows).foldl (fun st2 rowIdx =>
      if st2.2 < ct.length then
        (setCell st2.1 rowIdx (nk.indexOf (Nat.digitChar colNum))
          (ct.getD st2.2 'X'), st2.2 + 1)
      else st2) st)
    (List.range' 1 nk.length) ((fun _ _ => []), 0)
    (by intro st2 j hj; dsimp only; rw [hsi j hj]; rfl)
  rw [hfold, Option.some_bind]
  obtain ⟨st', heq, hcnt, ha, hb⟩ := fill_fold_char ct rows
    (fun j => nk.indexOf (Nat.digitChar j)) nk.length
    (indexOf_digitChar_inj hperm h9) nk.length le_rfl (by rw [hct, Nat.mul_comm])
  rw [heq]
  congr 1
  congr 1
  congr 1
  refine List.map_congr_left ?_
  intro r hr
  rw [List.mem_range] at hr
  have hinner : (List.range nk.length).map (fun c => st'.1 r c) =
      (List.range nk.length).map (fun c => [f r c]) := by
    refine List.map_congr_left ?_
    intro c hc
    rw [List.mem_range] at hc
    obtain ⟨j, hj1, hjn, hjc⟩ := indexOf_digitChar_surj hperm h9 c hc
    rw [← hjc]
    rw [ha j r hj1 hjn hr]
    rw [hcols j r hj1 hjn hr]
  rw [hinner, flatten_map_singleton]

/-- **C1 (amended).** Round-trip law: for every plaintext containing no
filler character `'X'` and no space, and every valid key of length at most
9, encryption with `keep_spaces = false` succeeds and decryption of the
result returns the original plaintext. -/
theorem c1_round_trip (p key : List Char) (hv : validate_key key = true)
    (h9 : key.length ≤ 9) (hX : 'X' ∉ p) (hsp : ' ' ∉ p) :
    ∃ ct, encrypt p key false = some ct ∧ decrypt ct key = some p := by
  obtain ⟨nk, hnk, hperm0, hlen⟩ := normalize_key_perm key hv h9
  have hne : key ≠ [] := ((validate_key_eq_true_iff key).mp hv).1
  have h1 : 1 ≤ key.length := by
    cases key with
    | nil => exact absurd rfl hne
    | cons a l => simp
  have hperm : nk.Perm (digitsList nk.length) := by rw [hlen]; exact hperm0
  have h9' : nk.length ≤ 9 := by rw [hlen]; exact h9
  have h1' : 1 ≤ nk.length := by rw [hlen]; exact h1
  have hfilter : p.filter (fun c => c != ' ') = p := by
    refine List.filter_eq_self.mpr ?_
    intro c hc
    simp only [bne_iff_ne, ne_eq, decide_eq_true_eq]
    intro hcq
    exact hsp (hcq ▸ hc)
  have henc := @encrypt_eq_cols key nk false hnk hperm h9' p p
    (pyCeilDiv p.length nk.length) (by simp [hfilter]) (rfl)
  refine ⟨_, henc, ?_⟩
  have hpadlen : (p ++ List.replicate
      (pyCeilDiv p.length nk.length * nk.length - p.length) 'X').length =
      pyCeilDiv p.length nk.length * nk.length := by
    rw [List.length_append, List.length_replicate]
    have := @le_pyCeilDiv_mul p.length nk.length h1'
    omega
  have hcols_len : ∀ l ∈ (List.range' 1 nk.length).map (fun j =>
      (List.range (pyCeilDiv p.length nk.length)).map (fun r =>
        (p ++ List.replicate (pyCeilDiv p.length nk.length * nk.length - p.length) 'X').getD
          (r * nk.length + nk.indexOf (Nat.digitChar j)) 'X')),
      l.length = pyCeilDiv p.length nk.length := by
    intro l hl
    obtain ⟨j, hj, rfl⟩ := List.mem_map.mp hl
    rw [List.length_map, List.length_range]
  have hctlen : (((List.range' 1 nk.length).map (fun j =>
      (List.range (pyCeilDiv p.length nk.length)).map (fun r =>
        (p ++ List.replicate (pyCeilDiv p.length nk.length * nk.length - p.length) 'X').getD
          (r * nk.length + nk.indexOf (Nat.digitChar j)) 'X'))).flatten).length =
      pyCeilDiv p.length nk.length * nk.length := by
    rw [List.length_flatten, List.map_map]
    have hconst : (List.range' 1 nk.length).map (List.length ∘ (fun j =>
        (List.range (pyCeilDiv p.length nk.length)).map (fun r =>
          (p ++ List.replicate (pyCeilDiv p.length nk.length * nk.length - p.length) 'X').getD
            (r * nk.length + nk.indexOf (Nat.digitChar j)) 'X'))) =
        (List.range' 1 nk.length).map (fun _ => pyCeilDiv p.length nk.length) := by
      refine List.map_congr_left ?_
      intro j _
      show ((List.range (pyCeilDiv p.length nk.length)).map _).length = _
      rw [List.length_map, List.length_range]
    rw [hconst, List.map_const', List.sum_replicate, List.length_range',
      smul_eq_mul, Nat.mul_comm]
  have hstep4 : ∀ j r, 1 ≤ j → j ≤ nk.length → r < pyCeilDiv p.length nk.length →
      (((List.range' 1 nk.length).map (fun j =>
        (List.range (pyCeilDiv p.length nk.length)).map (fun r =>
          (p ++ List.replicate (pyCeilDiv p.length nk.length * nk.length - p.length) 'X').getD
            (r * nk.length + nk.indexOf (Nat.digitChar j)) 'X'))).flatten).getD
        ((j - 1) * pyCeilDiv p.length nk.length + r) 'X' =
      (p ++ List.replicate (pyCeilDiv p.length nk.length * nk.length - p.length) 'X').getD
        (r * nk.length + nk.indexOf (Nat.digitChar j)) 'X' := by
    intro j r hj1 hjn hr
    rw [flatten_uniform_getD 'X' (pyCeilDiv p.length nk.length) _ hcols_len (j - 1) r
      (by rw [List.length_map, List.length_range']; omega) hr]
    rw [map_range'_getD, if_pos (by omega)]
    have hj' : 1 + (j - 1) = j := by omega
    rw [hj']
    rw [map_range_getD, if_pos hr]
  have hdec := decrypt_eq_of_cols hnk hperm h9' h1' hctlen
    (fun r c => (p ++ List.replicate
      (pyCeilDiv p.length nk.length * nk.length - p.length) 'X').getD
      (r * nk.length + c) 'X') hstep4
  rw [hdec, flatten_chunks 'X' (pyCeilDiv p.length nk.length) _ hpadlen,
    rstrip_append_replicate hX]

/-- **C1 (counterexample).** The claim fails as stated for plaintexts that
contain spaces: `"A B"` contains no `'X'` and `"1"` is a valid key, yet
encryption silently discards the space (with `keep_spaces = false`), so
decryption returns `"AB" ≠ "A B"`. -/
theorem c1_space_not_round_trip :
    validate_key "1".toList = true ∧ 'X' ∉ "A B".toList ∧
    encrypt "A B".toList "1".toList false = some "AB".toList ∧
    decrypt "AB".toList "1".toList = some "AB".toList ∧
    "AB".toList ≠ "A B".toList := by decide

/-- Witness for `c1_round_trip` at plaintext `"HELLOWORLD"` and key `"312"`. -/
theorem c1_round_trip_witness :
    ∃ ct, encrypt "HELLOWORLD".toList "312".toList false = some ct ∧
      decrypt ct "312".toList = some "HELLOWORLD".toList :=
  c1_round_trip _ _ (by decide) (by decide) (by decide) (by decide)

/-! ## Brute force: permutation generation order -/

theorem perm_cons_eraseIdx {α : Type} :
    ∀ (l : List α) (i : Nat) (h : i < l.length),
      l.Perm (l[i] :: l.eraseIdx i) := by
  intro l
  induction l with
  | nil => intro i h; exact absurd h (by simp)
  | cons a t ih =>
    intro i h
    cases i with
    | zero => exact List.Perm.refl _
    | succ i =>
      rw [List.eraseIdx_cons_succ]
      have hit : i < t.length := by simpa using h
      have step := (ih i hit).cons a
      refine step.trans ?_
      show (a :: t[i] :: t.eraseIdx i).Perm ((a :: t)[i + 1] :: a :: t.eraseIdx i)
      rw [List.getElem_cons_succ]
      exact List.Perm.swap _ _ _

theorem eraseIdx_map_comm {α β : Type} (g : α → β) :
    ∀ (l : List α) (i : Nat), (l.map g).eraseIdx i = (l.eraseIdx i).map g := by
  intro l
  induction l with
  | nil => intro i; rfl
  | cons a t ih =>
    intro i
    cases i with
    | zero => rfl
    | succ i => simp only [List.map_cons, List.eraseIdx_cons_succ, ih]

theorem permsLexGo_mem {α : Type} :
    ∀ (n : Nat) (l k : List α), l.length = n →
      (k ∈ permsLexGo n l ↔ k.Perm l) := by
  intro n
  induction n with
  | zero =>
    intro l k hl
    rw [List.length_eq_zero] at hl
    subst hl
    show k ∈ [[]] ↔ _
    rw [List.mem_singleton, List.perm_nil]
  | succ n ih =>
    intro l k hl
    show k ∈ l.enum.flatMap (fun p =>
      (permsLexGo n (l.eraseIdx p.1)).map (p.2 :: ·)) ↔ _
    rw [List.mem_flatMap]
    constructor
    · rintro ⟨p, hp, hk⟩
      rw [List.mem_map] at hk
      obtain ⟨k', hk', rfl⟩ := hk
      obtain ⟨i, a⟩ := p
      obtain ⟨hlt, ha⟩ := List.mem_enum hp
      have hlen' : (l.eraseIdx i).length = n := by
        rw [List.length_eraseIdx, if_pos hlt, hl]
        omega
      have hperm' := (ih (l.eraseIdx i) k' hlen').mp hk'
      have hl2 := perm_cons_eraseIdx l i hlt
      refine List.Perm.symm (hl2.trans ?_)
      show (l[i] :: l.eraseIdx i).Perm (a :: k')
      rw [← ha]
      exact (hperm'.symm).cons a
    · intro hk
      cases k with
      | nil =>
        exfalso
        have hlen0 := hk.length_eq
        rw [hl] at hlen0
        exact absurd hlen0.symm (Nat.succ_ne_zero n)
      | cons a k' =>
        have ha : a ∈ l := hk.subset (List.mem_cons_self a k')
        rw [List.mem_iff_getElem] at ha
        obtain ⟨i, hlt, hia⟩ := ha
        have henum : (i, a) ∈ l.enum := by
          rw [List.mem_iff_getElem]
          refine ⟨i, by rw [List.enum_length]; exact hlt, ?_⟩
          rw [List.getElem_enum, hia]
        have hl2 := perm_cons_eraseIdx l i hlt
        rw [hia] at hl2
        have hperm' := (hk.trans hl2).cons_inv
        have hlen' : (l.eraseIdx i).length = n := by
          rw [List.length_eraseIdx, if_pos hlt, hl]
          omega
        refine ⟨(i, a), henum, ?_⟩
        rw [List.mem_map]
        exact ⟨k', (ih (l.eraseIdx i) k' hlen').mpr hperm', rfl⟩

theorem enum_pairwise_fst {α : Type} (l : List α) :
    l.enum.Pairwise (fun p q => p.1 < q.1) := by
  rw [List.pairwise_iff_getElem]
  intro i j hi hj hij
  rw [List.getElem_enum, List.getElem_enum]
  exact hij

theorem permsLexGo_pairwise {α : Type} (r : α → α → Prop) :
    ∀ (n : Nat) (l : List α), l.length = n → l.Pairwise r →
      (permsLexGo n l).Pairwise (List.Lex r) := by
  intro n
  induction n with
  | zero => intro l _ _; exact List.pairwise_singleton _ _
  | succ n ih =>
    intro l hl hp
    show (l.enum.flatMap (fun p =>
      (permsLexGo n (l.eraseIdx p.1)).map (p.2 :: ·))).Pairwise _
    rw [List.flatMap_def, List.pairwise_flatten]
    constructor
    · intro L hL
      rw [List.mem_map] at hL
      obtain ⟨p, hpmem, rfl⟩ := hL
      obtain ⟨i, a⟩ := p
      obtain ⟨hlt, ha⟩ := List.mem_enum hpmem
      have hlen' : (l.eraseIdx i).length = n := by
        rw [List.length_eraseIdx, if_pos hlt, hl]
        omega
      have hsub := List.Pairwise.sublist (List.eraseIdx_sublist l i) hp
      have hih := ih (l.eraseIdx i) hlen' hsub
      rw [List.pairwise_map]
      exact hih.imp (fun h => List.Lex.cons h)
    · rw [List.pairwise_map]
      refine List.Pairwise.imp_of_mem ?_ (enum_pairwise_fst l)
      intro p q hpmem hqmem hpq x hx y hy
      obtain ⟨i, a⟩ := p
      obtain ⟨j, b⟩ := q
      obtain ⟨hilt, ha⟩ := List.mem_enum hpmem
      obtain ⟨hjlt, hb⟩ := List.mem_enum hqmem
      rw [List.mem_map] at hx hy
      obtain ⟨kx, _, rfl⟩ := hx
      obtain ⟨ky, _, rfl⟩ := hy
      refine List.Lex.rel ?_
      show r a b
      rw [ha, hb]
      exact (List.pairwise_iff_getElem.mp hp) i j hilt hjlt hpq

theorem permsLexGo_map {α β : Type} (g : α → β) :
    ∀ (n : Nat) (l : List α),
      permsLexGo n (l.map g) = (permsLexGo n l).map (List.map g) := by
  intro n
  induction n with
  | zero => intro l; rfl
  | succ n ih =>
    intro l
    show (l.map g).enum.flatMap _ = (l.enum.flatMap _).map _
    rw [List.enum_map, List.flatMap_map, List.map_flatMap]
    rw [List.flatMap_def, List.flatMap_def]
    congr 1
    refine List.map_congr_left ?_
    intro p hp
    dsimp only [Prod.map, id_eq]
    rw [eraseIdx_map_comm g l p.1, ih (l.eraseIdx p.1), List.map_map, List.map_map]
    rfl

theorem flatten_map_single {α : Type} (l : List α) :
    (l.map (fun a => [a])).flatten = l := by
  induction l with
  | nil => rfl
  | cons x xs ih => simp only [List.map_cons, List.flatten_cons, ih, List.singleton_append]

theorem key_perms_eq {kl : Nat} (h9 : kl ≤ 9) :
    key_perms kl = permsLexGo kl (digitsList kl) := by
  have hdig : (List.range' 1 kl).map natToStr = (digitsList kl).map (fun c => [c]) := by
    rw [digitsList, List.map_map]
    refine List.map_congr_left ?_
    intro j hj
    rw [List.mem_range'] at hj
    obtain ⟨i, hi, rfl⟩ := hj
    show natToStr (1 + 1 * i) = [Nat.digitChar (1 + 1 * i)]
    exact natToStr_of_lt_ten _ (by omega)
  show ((permsLexGo ((List.range' 1 kl).map natToStr).length
    ((List.range' 1 kl).map natToStr)).map List.flatten) = _
  rw [hdig, List.length_map, digitsList_length, permsLexGo_map, List.map_map]
  refine Eq.trans (List.map_congr_left ?_) (List.map_id _)
  intro k _
  exact flatten_map_single k

theorem key_perms_mem {kl : Nat} (h9 : kl ≤ 9) (k : List Char) :
    k ∈ key_perms kl ↔ k.Perm (digitsList kl) := by
  rw [key_perms_eq h9]
  exact permsLexGo_mem kl (digitsList kl) k (digitsList_length kl)

theorem digitChar_lt_of_lt {i j : Nat} (hj : j ≤ 9) (hij : i < j) :
    Nat.digitChar i < Nat.digitChar j := by
  have hd : ∀ a, a < 10 → ∀ b, b < 10 → a < b → Nat.digitChar a < Nat.digitChar b := by
    decide
  exact hd i (by omega) j (by omega) hij

theorem digitsList_sorted {n : Nat} (h9 : n ≤ 9) :
    (digitsList n).Pairwise (fun a b => a < b) := by
  rw [digitsList, List.pairwise_map]
  refine List.Pairwise.imp_of_mem ?_ (List.pairwise_lt_range' 1 n)
  intro a b ha hb hab
  rw [List.mem_range'] at hb
  obtain ⟨ib, hib, rfl⟩ := hb
  exact digitChar_lt_of_lt (by omega) hab

theorem key_perms_pairwise {kl : Nat} (h9 : kl ≤ 9) :
    (key_perms kl).Pairwise (List.Lex (fun a b => a < b)) := by
  rw [key_perms_eq h9]
  exact permsLexGo_pairwise _ kl _ (digitsList_length kl) (digitsList_sorted h9)

theorem normalize_key_of_perm {key : List Char} (h9 : key.length ≤ 9)
    (h1 : 1 ≤ key.length) (hperm : key.Perm (digitsList key.length)) :
    normalize_key key = some key := by
  have hdig : ∀ c ∈ key, pyIsDigit c = true := by
    intro c hc
    have hcd := hperm.subset hc
    rw [mem_digitsList] at hcd
    obtain ⟨i, hi1, hin, rfl⟩ := hcd
    exact pyIsDigit_digitChar i hi1 (by omega)
  have hne : key ≠ [] := by
    intro h
    rw [h] at h1
    exact absurd h1 (by simp)
  have hval : validate_key key = true :=
    (validate_key_eq_true_iff key).mpr ⟨hne, Or.inl ⟨hdig, hperm⟩⟩
  have hall : key.all pyIsDigit = true := by
    rw [List.all_eq_true]
    exact hdig
  rw [normalize_key, if_pos hval, if_pos hall]

theorem decrypt_total {key nk : List Char} (ct : List Char)
    (hnk : normalize_key key = some nk)
    (hperm : nk.Perm (digitsList nk.length)) (h9 : nk.length ≤ 9) :
    ∃ pt, decrypt ct key = some pt := by
  have hsi := @strIndex_digits nk nk.length h9 hperm
  have hfold := foldlM_option_eq_foldl
    (fun (st : (Nat → Nat → List Char) × Nat) colNum =>
      (strIndex nk (natToStr colNum)).map (fun colIdx =>
        (List.range (pyCeilDiv ct.length nk.length)).foldl (fun st2 rowIdx =>
          if st2.2 < ct.length then
            (setCell st2.1 rowIdx colIdx (ct.getD st2.2 'X'), st2.2 + 1)
          else st2) st))
    (fun st colNum => (List.range (pyCeilDiv ct.length nk.length)).foldl
      (fun st2 rowIdx =>
        if st2.2 < ct.length then
          (setCell st2.1 rowIdx (nk.indexOf (Nat.digitChar colNum))
            (ct.getD st2.2 'X'), st2.2 + 1)
        else st2) st)
    (List.range' 1 nk.length) ((fun _ _ => []), 0)
    (by intro st2 j hj; dsimp only; rw [hsi j hj]; rfl)
  rw [← Option.isSome_iff_exists]
  simp only [decrypt, hnk, Option.bind_eq_bind, Option.some_bind, Option.pure_def]
  rw [hfold, Option.some_bind]
  rfl

theorem bruteResults_mem (ct : List Char) (m : Nat) (h9 : m ≤ 9)
    (key pt : List Char) (s : ℚ) :
    (key, pt, s) ∈ bruteResults ct m ↔
      1 ≤ key.length ∧ key.length ≤ m ∧ key.Perm (digitsList key.length) ∧
      decrypt ct key = some pt ∧
      s = score_with_dictionary pt (score_text_by_dictionary pt) := by
  unfold bruteResults
  rw [List.mem_flatMap]
  constructor
  · rintro ⟨kl, hkl, hmem⟩
    rw [List.mem_range'] at hkl
    obtain ⟨i, hi, rfl⟩ := hkl
    rw [List.mem_filterMap] at hmem
    obtain ⟨k, hk, hmap⟩ := hmem
    rw [Option.map_eq_some'] at hmap
    obtain ⟨pt', hdec, heq⟩ := hmap
    simp only [Prod.mk.injEq] at heq
    obtain ⟨rfl, rfl, rfl⟩ := heq
    have hkl9 : 1 + 1 * i ≤ 9 := by omega
    have hkp := (key_perms_mem hkl9 k).mp hk
    have hklen : k.length = 1 + 1 * i := hkp.length_eq.trans (digitsList_length _)
    refine ⟨by omega, by omega, ?_, hdec, rfl⟩
    rw [hklen]
    exact hkp
  · rintro ⟨h1, hm, hperm, hdec, rfl⟩
    refine ⟨key.length, ?_, ?_⟩
    · rw [List.mem_range']
      exact ⟨key.length - 1, by omega, by omega⟩
    · rw [List.mem_filterMap]
      refine ⟨key, (key_perms_mem (by omega) key).mpr hperm, ?_⟩
      rw [hdec]
      rfl

theorem bruteResults_pairwise (ct : List Char) (m : Nat) (h9 : m ≤ 9) :
    (bruteResults ct m).Pairwise (fun a b => keyOrder a.1 b.1) := by
  unfold bruteResults
  rw [List.flatMap_def, List.pairwise_flatten]
  constructor
  · intro L hL
    rw [List.mem_map] at hL
    obtain ⟨kl, hkl, rfl⟩ := hL
    rw [List.mem_range'] at hkl
    obtain ⟨i, hi, rfl⟩ := hkl
    have hkl9 : 1 + 1 * i ≤ 9 := by omega
    have hpw : (key_perms (1 + 1 * i)).Pairwise
        (fun a b => a.length = b.length ∧ List.Lex (fun x y => x < y) a b) := by
      refine List.Pairwise.imp_of_mem ?_ (key_perms_pairwise hkl9)
      intro a b ha hb hlex
      have hla := ((key_perms_mem hkl9 a).mp ha).length_eq.trans (digitsList_length _)
      have hlb := ((key_perms_mem hkl9 b).mp hb).length_eq.trans (digitsList_length _)
      exact ⟨hla.trans hlb.symm, hlex⟩
    refine List.Pairwise.filterMap _ ?_ hpw
    intro a b hab x hx y hy
    rw [Option.mem_def, Option.map_eq_some'] at hx hy
    obtain ⟨px, _, hgx⟩ := hx
    obtain ⟨py, _, hgy⟩ := hy
    subst hgx hgy
    exact Or.inr hab
  · rw [List.pairwise_map]
    refine List.Pairwise.imp_of_mem ?_ (List.pairwise_lt_range' 1 m)
    intro kl1 kl2 h1 h2 hlt x hx y hy
    rw [List.mem_range'] at h1 h2
    obtain ⟨i1, hi1, rfl⟩ := h1
    obtain ⟨i2, hi2, rfl⟩ := h2
    rw [List.mem_filterMap] at hx hy
    obtain ⟨a, ha, hfa⟩ := hx
    obtain ⟨b, hb, hfb⟩ := hy
    rw [Option.map_eq_some'] at hfa hfb
    obtain ⟨pa, _, hga⟩ := hfa
    obtain ⟨pb, _, hgb⟩ := hfb
    subst hga hgb
    have hla := ((key_perms_mem (by omega) a).mp ha).length_eq.trans (digitsList_length _)
    have hlb := ((key_perms_mem (by omega) b).mp hb).length_eq.trans (digitsList_length _)
    refine Or.inl ?_
    show a.length < b.length
    omega

theorem sortDescBy_key_const {α β : Type} [LinearOrder β] (key : α → β) (q : β) :
    ∀ (l : List α), (∀ x ∈ l, key x = q) → sortDescBy key l = l := by
  intro l
  induction l with
  | nil => intro _; rfl
  | cons x t ih =>
    intro h
    have hrw : sortDescBy key (x :: t) = insertDescBy key x (sortDescBy key t) := rfl
    rw [hrw, ih (fun y hy => h y (List.mem_cons_of_mem x hy))]
    cases t with
    | nil => rfl
    | cons y ys =>
      have hcond : ¬ key x < key y := by
        rw [h x (List.mem_cons_self x _),
          h y (List.mem_cons_of_mem x (List.mem_cons_self y ys))]
        exact lt_irrefl q
      show (if key x < key y then y :: insertDescBy key x ys else x :: y :: ys) =
        x :: y :: ys
      rw [if_neg hcond]

/-- **C5 (amended).** For `max_key_length ≤ 9`, `brute_force_attack` returns
exactly the `(key, plaintext, score)` triples for every permutation key of
every length `1 .. max_key_length` (decryption always succeeds for such
keys), sorted descending by score; equal-score ties keep the generation
order: shorter key first, and among keys of equal length the
lexicographically smaller key first. -/
theorem c5_brute_force_spec (ciphertext : List Char) (m : Nat) (h9 : m ≤ 9) :
    (∀ key : List Char, 1 ≤ key.length → key.length ≤ m →
        key.Perm (digitsList key.length) →
        ∃ pt, decrypt ciphertext key = some pt ∧
          (key, pt, score_with_dictionary pt (score_text_by_dictionary pt)) ∈
            brute_force_attack ciphertext m) ∧
    (∀ key pt s, (key, pt, s) ∈ brute_force_attack ciphertext m →
        1 ≤ key.length ∧ key.length ≤ m ∧ key.Perm (digitsList key.length) ∧
        decrypt ciphertext key = some pt ∧
        s = score_with_dictionary pt (score_text_by_dictionary pt)) ∧
    (brute_force_attack ciphertext m).Pairwise
      (fun a b => b.2.2 < a.2.2 ∨ (a.2.2 = b.2.2 ∧ keyOrder a.1 b.1)) := by
  refine ⟨?_, ?_, ?_⟩
  · intro key h1 hm hperm
    have hnk : normalize_key key = some key :=
      normalize_key_of_perm (by omega) h1 hperm
    obtain ⟨pt, hdec⟩ := decrypt_total ciphertext hnk hperm (by omega)
    refine ⟨pt, hdec, ?_⟩
    have hmem := (bruteResults_mem ciphertext m h9 key pt _).mpr
      ⟨h1, hm, hperm, hdec, rfl⟩
    exact ((sortDescBy_perm (fun t => t.2.2) (bruteResults ciphertext m)).mem_iff).mpr hmem
  · intro key pt s hmem
    have hmem' := ((sortDescBy_perm (fun t => t.2.2)
      (bruteResults ciphertext m)).mem_iff).mp hmem
    exact (bruteResults_mem ciphertext m h9 key pt s).mp hmem'
  · exact sortDescBy_pairwise (fun t : List Char × List Char × ℚ => t.2.2)
      (fun a b => keyOrder a.1 b.1) (bruteResults ciphertext m)
      (bruteResults_pairwise ciphertext m h9)

/-- Witness for `c5_brute_force_spec` at ciphertext `"AB"` and
`max_key_length = 2`. -/
theorem c5_brute_force_spec_witness :
    (∀ key : List Char, 1 ≤ key.length → key.length ≤ 2 →
        key.Perm (digitsList key.length) →
        ∃ pt, decrypt "AB".toList key = some pt ∧
          (key, pt, score_with_dictionary pt (score_text_by_dictionary pt)) ∈
            brute_force_attack "AB".toList 2) ∧
    (∀ key pt s, (key, pt, s) ∈ brute_force_attack "AB".toList 2 →
        1 ≤ key.length ∧ key.length ≤ 2 ∧ key.Perm (digitsList key.length) ∧
        decrypt "AB".toList key = some pt ∧
        s = score_with_dictionary pt (score_text_by_dictionary pt)) ∧
    (brute_force_attack "AB".toList 2).Pairwise
      (fun a b => b.2.2 < a.2.2 ∨ (a.2.2 = b.2.2 ∧ keyOrder a.1 b.1)) :=
  c5_brute_force_spec "AB".toList 2 (by decide)

/-- **C5 (counterexample).** Ties are not globally ordered by the
lexicographically smaller key: on the ciphertext `"QQQQQQ"` every candidate
decrypts to the same text, so all scores are equal, yet the output lists the
length-2 key `"21"` before the length-3 key `"123"` although `"123"` is
lexicographically smaller than `"21"`. -/
theorem c5_tie_break_not_lex :
    List.Lex (fun a b => a < b) "123".toList "21".toList ∧
    [("21".toList, "QQQQQQ".toList,
        score_with_dictionary "QQQQQQ".toList
          (score_text_by_dictionary "QQQQQQ".toList)),
      ("123".toList, "QQQQQQ".toList,
        score_with_dictionary "QQQQQQ".toList
          (score_text_by_dictionary "QQQQQQ".toList))].Sublist
      (brute_force_attack "QQQQQQ".toList 3) := by
  constructor
  · decide
  · have hbr : bruteResults "QQQQQQ".toList 3 =
        ["1".toList, "12".toList, "21".toList, "123".toList, "132".toList,
         "213".toList, "231".toList, "312".toList, "321".toList].map
          (fun k => (k, "QQQQQQ".toList,
            score_with_dictionary "QQQQQQ".toList
              (score_text_by_dictionary "QQQQQQ".toList))) := rfl
    have hconst : ∀ x ∈ bruteResults "QQQQQQ".toList 3,
        (fun t : List Char × List Char × ℚ => t.2.2) x =
          score_with_dictionary "QQQQQQ".toList
            (score_text_by_dictionary "QQQQQQ".toList) := by
      rw [hbr]
      intro x hx
      rw [List.mem_map] at hx
      obtain ⟨k, _, rfl⟩ := hx
      rfl
    have hout : brute_force_attack "QQQQQQ".toList 3 =
        bruteResults "QQQQQQ".toList 3 :=
      sortDescBy_key_const _ _ _ hconst
    rw [hout, hbr]
    simp only [List.map_cons, List.map_nil]
    exact List.Sublist.cons _ (List.Sublist.cons _ (List.Sublist.cons₂ _
      (List.Sublist.cons₂ _ (List.nil_sublist _))))

/-! ## Genetic algorithm: permutation preservation -/

theorem digitChar_ne_zero {i : Nat} (h1 : 1 ≤ i) (h9 : i ≤ 9) :
    Nat.digitChar i ≠ '0' := by
  have hd : ∀ a, a < 10 → 1 ≤ a → Nat.digitChar a ≠ '0' := by decide
  exact hd i (by omega) h1

theorem mem_digitsList_ne_zero {c : Char} {kl : Nat} (h9 : kl ≤ 9)
    (hc : c ∈ digitsList kl) : c ≠ '0' := by
  rw [mem_digitsList] at hc
  obtain ⟨i, h1, hi, rfl⟩ := hc
  exact digitChar_ne_zero h1 (by omega)

theorem findIdx?_some_spec {α : Type} (p : α → Bool) (l : List α) (k : Nat)
    (h : l.findIdx? p = some k) :
    ∃ hk : k < l.length, p (l.get ⟨k, hk⟩) = true ∧
      ∀ j, j < k → ∀ c, l[j]? = some c → p c = false := by
  rw [List.findIdx?_eq_some_iff_findIdx_eq] at h
  obtain ⟨hk, hfi⟩ := h
  subst hfi
  refine ⟨hk, ?_, ?_⟩
  · exact List.findIdx_getElem
  · intro j hj c hc
    rw [List.getElem?_eq_some] at hc
    obtain ⟨hjl, rfl⟩ := hc
    exact List.not_of_lt_findIdx hj

theorem map_range_set {α : Type} (L i : Nat) (hi : i < L) (f : Nat → α) (c : α) :
    ((List.range L).map f).set i c =
      (List.range L).map (fun j => if j = i then c else f j) := by
  refine List.ext_getElem? ?_
  intro n
  by_cases hn : n < L
  · have hmn : n < ((List.range L).map f).length := by simpa using hn
    have hmn2 : n < ((List.range L).map (fun j => if j = i then c else f j)).length := by
      simpa using hn
    by_cases hni : n = i
    · subst hni
      rw [List.getElem?_set_self hmn, List.getElem?_eq_getElem hmn2]
      simp [List.getElem_map, List.getElem_range]
    · rw [List.getElem?_set_ne (fun h => hni h.symm)]
      rw [List.getElem?_eq_getElem hmn, List.getElem?_eq_getElem hmn2]
      simp only [List.getElem_map, List.getElem_range, if_neg hni]
  · have h1 : (((List.range L).map f).set i c).length ≤ n := by
      simpa using (by omega : L ≤ n)
    have h2 : ((List.range L).map (fun j => if j = i then c else f j)).length ≤ n := by
      simpa using (by omega : L ≤ n)
    rw [List.getElem?_eq_none h1, List.getElem?_eq_none h2]

theorem map_range_getD_self {α : Type} (l : List α) (d : α) :
    (List.range l.length).map (fun i => l.getD i d) = l := by
  refine List.ext_getElem? ?_
  intro n
  by_cases hn : n < l.length
  · rw [List.getElem?_eq_getElem (by simpa using hn), List.getElem_map,
      List.getElem_range, List.getElem?_eq_getElem hn]
    rw [List.getD_eq_getElem?_getD, List.getElem?_eq_getElem hn]
    rfl
  · rw [List.getElem?_eq_none (by simpa using (by omega : l.length ≤ n)),
      List.getElem?_eq_none (by omega)]

theorem swap_random_positions_short {key : List Char} (ij : Nat × Nat)
    (h : key.length < 2) : swap_random_positions key ij = none := by
  unfold swap_random_positions
  rw [if_pos h]

theorem mutate_key_short {key : List Char} (ij : Nat × Nat)
    (h : key.length < 2) : mutate_key key ij = none :=
  swap_random_positions_short ij h

theorem swap_random_positions_perm (key : List Char) (ij : Nat × Nat)
    (h2 : 2 ≤ key.length) :
    ∃ k2, swap_random_positions key ij = some k2 ∧ k2.Perm key := by
  unfold swap_random_positions
  rw [if_neg (by omega)]
  by_cases hc : ij.1 < key.length ∧ ij.2 < key.length ∧ ij.1 ≠ ij.2
  · rw [if_pos hc]
    refine ⟨_, rfl, ?_⟩
    obtain ⟨hi, hj, hne⟩ := hc
    have hgj : key.getD ij.2 '0' = key[ij.2] := by
      rw [List.getD_eq_getElem?_getD, List.getElem?_eq_getElem hj]
      rfl
    have hgi : key.getD ij.1 '0' = key[ij.1] := by
      rw [List.getD_eq_getElem?_getD, List.getElem?_eq_getElem hi]
      rfl
    rw [hgj, hgi]
    rw [List.perm_iff_count]
    intro a
    have hlen1 : ij.2 < (key.set ij.1 key[ij.2]).length := by simpa using hj
    rw [List.count_set key[ij.1] a (key.set ij.1 key[ij.2]) ij.2 hlen1]
    rw [List.count_set key[ij.2] a key ij.1 hi]
    have hsj : (key.set ij.1 key[ij.2])[ij.2] = key[ij.2] :=
      List.getElem_set_ne hne hlen1
    rw [hsj]
    by_cases hxa : key[ij.1] = a <;> by_cases hya : key[ij.2] = a
    · have hb1 : (key[ij.1] == a) = true := beq_iff_eq.mpr hxa
      have hb2 : (key[ij.2] == a) = true := beq_iff_eq.mpr hya
      have h1 : 0 < key.count a := List.count_pos_iff.mpr (hxa ▸ List.getElem_mem hi)
      rw [if_pos hb1, if_pos hb2]
      omega
    · have hb1 : (key[ij.1] == a) = true := beq_iff_eq.mpr hxa
      have hb2 : ¬ ((key[ij.2] == a) = true) := fun h => hya (beq_iff_eq.mp h)
      have h1 : 0 < key.count a := List.count_pos_iff.mpr (hxa ▸ List.getElem_mem hi)
      rw [if_pos hb1, if_neg hb2]
      omega
    · have hb1 : ¬ ((key[ij.1] == a) = true) := fun h => hxa (beq_iff_eq.mp h)
      have hb2 : (key[ij.2] == a) = true := beq_iff_eq.mpr hya
      have h2a : 0 < key.count a := List.count_pos_iff.mpr (hya ▸ List.getElem_mem hj)
      rw [if_neg hb1, if_pos hb2]
      omega
    · have hb1 : ¬ ((key[ij.1] == a) = true) := fun h => hxa (beq_iff_eq.mp h)
      have hb2 : ¬ ((key[ij.2] == a) = true) := fun h => hya (beq_iff_eq.mp h)
      rw [if_neg hb1, if_neg hb2]
      omega
  · rw [if_neg hc]
    exact ⟨key, rfl, List.Perm.refl key⟩

theorem mutate_key_perm (key : List Char) (ij : Nat × Nat)
    (h2 : 2 ≤ key.length) :
    ∃ k2, mutate_key key ij = some k2 ∧ k2.Perm key :=
  swap_random_positions_perm key ij h2

theorem crossover_keys_short {k1 : List Char} (k2 : List Char) (pts : Nat × Nat)
    (h : k1.length < 2) : crossover_keys k1 k2 pts = none := by
  unfold crossover_keys
  rw [if_pos h]

theorem generate_random_key_perm {kl : Nat} (h9 : kl ≤ 9) (σ : List Nat) :
    (generate_random_key kl σ).Perm (digitsList kl) := by
  simp only [generate_random_key]
  have hshuf : ∀ sh : List Nat, sh.Perm (List.range' 1 kl) →
      ((sh.map natToStr).flatten).Perm (digitsList kl) := by
    intro sh hsh
    have hmap : sh.map natToStr = sh.map (fun j => [Nat.digitChar j]) := by
      refine List.map_congr_left ?_
      intro j hj
      have hjr := hsh.subset hj
      rw [List.mem_range'] at hjr
      obtain ⟨i, hi, rfl⟩ := hjr
      exact natToStr_of_lt_ten _ (by omega)
    rw [hmap, flatten_map_singleton]
    exact hsh.map Nat.digitChar
  by_cases hp : σ.Perm (List.range (List.range' 1 kl).length)
  · rw [if_pos hp]
    refine hshuf _ ?_
    have h1 := hp.map (fun i => (List.range' 1 kl).getD i 0)
    refine h1.trans ?_
    have h2 : (List.range (List.range' 1 kl).length).map
        (fun i => (List.range' 1 kl).getD i 0) = List.range' 1 kl :=
      map_range_getD_self (List.range' 1 kl) 0
    rw [h2]
  · rw [if_neg hp]
    exact hshuf _ (List.Perm.refl _)

theorem crossover_fill_go {kl : Nat} (h9 : kl ≤ 9) {k2 : List Char}
    (hk2 : k2.Perm (digitsList kl)) :
    ∀ (fs : List Nat) (g : Nat → Char) (pos : Nat),
      fs.Nodup → (∀ j ∈ fs, j < kl) → pos ≤ kl →
      (∀ j ∈ fs, g j = '0') →
      (∀ j, j < kl → g j = '0' → j ∈ fs) →
      (∀ j1 j2, j1 < kl → j2 < kl → g j1 = g j2 → g j1 ≠ '0' → j1 = j2) →
      (∀ j, j < kl → g j ≠ '0' → g j ∈ digitsList kl) →
      (∀ idx, idx < pos → ∀ c, k2[idx]? = some c → ∃ j, j < kl ∧ g j = c) →
      ∃ g' pos',
        (fs.foldlM (fun (st : List Char × Nat) i =>
          match (k2.drop st.2).findIdx? (fun c => !(st.1.contains c)) with
          | none => none
          | some k => some (st.1.set i (k2.getD (st.2 + k) '0'), st.2 + k + 1))
          ((List.range kl).map g, pos)) =
          some ((List.range kl).map g', pos') ∧
        (∀ j, j < kl → g' j ≠ '0') ∧
        (∀ j1 j2, j1 < kl → j2 < kl → g' j1 = g' j2 → j1 = j2) ∧
        (∀ j, j < kl → g' j ∈ digitsList kl) := by
  have hk2len : k2.length = kl := hk2.length_eq.trans (digitsList_length kl)
  have hk2nd : k2.Nodup := hk2.nodup_iff.mpr (digitsList_nodup h9)
  have hk2nz : ∀ c ∈ k2, c ≠ '0' := fun c hc =>
    mem_digitsList_ne_zero h9 (hk2.subset hc)
  intro fs
  induction fs with
  | nil =>
    intro g pos _ _ _ _ hzm hinj hsub _
    refine ⟨g, pos, rfl, ?_, ?_, ?_⟩
    · intro j hj h0
      exact absurd (hzm j hj h0) (List.not_mem_nil j)
    · intro j1 j2 h1 h2 he
      refine hinj j1 j2 h1 h2 he ?_
      intro h0
      exact absurd (hzm j1 h1 h0) (List.not_mem_nil j1)
    · intro j hj
      refine hsub j hj ?_
      intro h0
      exact absurd (hzm j hj h0) (List.not_mem_nil j)
  | cons i fs' ih =>
    intro g pos hnd hbound hpos hzero hzm hinj hsub htake
    have hikl : i < kl := hbound i (List.mem_cons_self i fs')
    have hgi : g i = '0' := hzero i (List.mem_cons_self i fs')
    rw [List.nodup_cons] at hnd
    obtain ⟨hinotin, hnd'⟩ := hnd
    cases hfind : (k2.drop pos).findIdx?
        (fun c => !(((List.range kl).map g).contains c)) with
    | none =>
      exfalso
      rw [List.findIdx?_eq_none_iff] at hfind
      have hallk2 : ∀ c ∈ k2, c ∈ (List.range kl).map g := by
        intro c hc
        rw [List.mem_iff_getElem] at hc
        obtain ⟨idx, hidx, hgetc⟩ := hc
        by_cases hip : idx < pos
        · obtain ⟨j, hj, hgj⟩ := htake idx hip c
            (by rw [List.getElem?_eq_getElem hidx, hgetc])
          exact List.mem_map.mpr ⟨j, List.mem_range.mpr hj, hgj⟩
        · have hdropmem : c ∈ k2.drop pos := by
            have hg1 : (k2.drop pos)[idx - pos]? = some c := by
              rw [List.getElem?_drop]
              have hpi : pos + (idx - pos) = idx := by omega
              rw [hpi, List.getElem?_eq_getElem hidx, hgetc]
            rw [List.getElem?_eq_some] at hg1
            obtain ⟨hlt1, hg2⟩ := hg1
            exact hg2 ▸ List.getElem_mem hlt1
          have hfc := hfind c hdropmem
          have hcont : (((List.range kl).map g).contains c) = true := by
            simpa using hfc
          rw [List.contains_iff_exists_mem_beq] at hcont
          obtain ⟨c', hc', hbeq⟩ := hcont
          rw [beq_iff_eq.mp hbeq]
          exact hc'
      have h0mem : '0' ∈ (List.range kl).map g :=
        List.mem_map.mpr ⟨i, List.mem_range.mpr hikl, hgi⟩
      have hsubset : k2 ⊆ ((List.range kl).map g).erase '0' := by
        intro c hc
        exact (List.mem_erase_of_ne (hk2nz c hc)).mpr (hallk2 c hc)
      have hsp := (hk2nd.subperm hsubset).length_le
      rw [List.length_erase_of_mem h0mem, List.length_map, List.length_range,
        hk2len] at hsp
      omega
    | some k =>
      obtain ⟨hklt, hpk, hmin⟩ := findIdx?_some_spec _ (k2.drop pos) k hfind
      have hdlen : (k2.drop pos).length = kl - pos := by
        rw [List.length_drop, hk2len]
      set c := (k2.drop pos).get ⟨k, hklt⟩ with hcdef
      have hcmem : c ∈ k2 := List.drop_subset pos k2 (List.get_mem _ _ hklt)
      have hcnz : c ≠ '0' := hk2nz _ hcmem
      have hcdl : c ∈ digitsList kl := hk2.subset hcmem
      have hccont : (((List.range kl).map g).contains c) = false := by
        simpa using hpk
      have hcnotin : ∀ j, j < kl → g j ≠ c := by
        intro j hj heq
        have hct : ((List.range kl).map g).contains c = true :=
          List.elem_iff.mpr (List.mem_map.mpr ⟨j, List.mem_range.mpr hj, heq⟩)
        rw [hccont] at hct
        exact Bool.false_ne_true hct
      have hval : k2.getD (pos + k) '0' = c := by
        rw [List.getD_eq_getElem?_getD]
        have h1 : k2[pos + k]? = some c := by
          rw [← List.getElem?_drop]
          exact List.getElem?_eq_getElem hklt
        rw [h1]
        rfl
      have hpos1 : pos + k + 1 ≤ kl := by
        rw [hdlen] at hklt
        omega
      have hzero1 : ∀ j ∈ fs', (if j = i then c else g j) = '0' := by
        intro j hj
        have hji : j ≠ i := fun h => hinotin (h ▸ hj)
        rw [if_neg hji]
        exact hzero j (List.mem_cons_of_mem i hj)
      have hzm1 : ∀ j, j < kl → (if j = i then c else g j) = '0' → j ∈ fs' := by
        intro j hj h0
        by_cases hji : j = i
        · rw [if_pos hji] at h0
          exact absurd h0 hcnz
        · rw [if_neg hji] at h0
          rcases List.mem_cons.mp (hzm j hj h0) with h | h
          · exact absurd h hji
          · exact h
      have hinj1 : ∀ j1 j2, j1 < kl → j2 < kl →
          (if j1 = i then c else g j1) = (if j2 = i then c else g j2) →
          (if j1 = i then c else g j1) ≠ '0' → j1 = j2 := by
        intro j1 j2 h1 h2 he hnz
        by_cases e1 : j1 = i <;> by_cases e2 : j2 = i
        · rw [e1, e2]
        · rw [if_pos e1] at he hnz
          rw [if_neg e2] at he
          exact absurd he.symm (hcnotin j2 h2)
        · rw [if_neg e1] at he hnz
          rw [if_pos e2] at he
          exact absurd he (hcnotin j1 h1)
        · rw [if_neg e1] at he hnz
          rw [if_neg e2] at he
          exact hinj j1 j2 h1 h2 he hnz
      have hsub1 : ∀ j, j < kl → (if j = i then c else g j) ≠ '0' →
          (if j = i then c else g j) ∈ digitsList kl := by
        intro j hj hnz
        by_cases hji : j = i
        · rw [if_pos hji]
          exact hcdl
        · rw [if_neg hji] at hnz ⊢
          exact hsub j hj hnz
      have htake1 : ∀ idx, idx < pos + k + 1 → ∀ c', k2[idx]? = some c' →
          ∃ j, j < kl ∧ (if j = i then c else g j) = c' := by
        intro idx hidx c' hc'
        have hcmem' : c' ∈ k2 := by
          rw [List.getElem?_eq_some] at hc'
          obtain ⟨hl, hg⟩ := hc'
          exact hg ▸ List.getElem_mem hl
        by_cases hip : idx < pos
        · obtain ⟨j, hj, hgj⟩ := htake idx hip c' hc'
          have hji : j ≠ i := by
            intro h
            rw [h, hgi] at hgj
            exact hk2nz c' hcmem' hgj.symm
          exact ⟨j, hj, by rw [if_neg hji]; exact hgj⟩
        · by_cases hieq : idx = pos + k
          · refine ⟨i, hikl, ?_⟩
            rw [if_pos rfl]
            have h1 : k2[pos + k]? = some c := by
              rw [← List.getElem?_drop]
              exact List.getElem?_eq_getElem hklt
            rw [hieq, h1] at hc'
            exact Option.some.inj hc'
          · have hlt : idx - pos < k := by omega
            have hdropped : (k2.drop pos)[idx - pos]? = some c' := by
              rw [List.getElem?_drop]
              have hpi : pos + (idx - pos) = idx := by omega
              rw [hpi]
              exact hc'
            have hpf := hmin (idx - pos) hlt c' hdropped
            have hct : (((List.range kl).map g).contains c') = true := by
              simpa using hpf
            rw [List.contains_iff_exists_mem_beq] at hct
            obtain ⟨c'', hc'', hbeq⟩ := hct
            rw [List.mem_map] at hc''
            obtain ⟨j, hjr, hgj⟩ := hc''
            have hj : j < kl := List.mem_range.mp hjr
            have hji : j ≠ i := by
              intro h
              rw [h, hgi] at hgj
              have hcc : c' = c'' := beq_iff_eq.mp hbeq
              exact hk2nz c' hcmem' (by rw [hcc, ← hgj])
            refine ⟨j, hj, ?_⟩
            rw [if_neg hji, hgj]
            exact (beq_iff_eq.mp hbeq).symm
      obtain ⟨g', pos'', hfold', hA, hB, hC⟩ := ih (fun j => if j = i then c else g j)
        (pos + k + 1) hnd' (fun j hj => hbound j (List.mem_cons_of_mem i hj))
        hpos1 hzero1 hzm1 hinj1 hsub1 htake1
      refine ⟨g', pos'', ?_, hA, hB, hC⟩
      rw [List.foldlM_cons]
      dsimp only
      simp only [hfind]
      rw [hval, map_range_set kl i hikl g c]
      simp only [Option.bind_eq_bind, Option.some_bind]
      exact hfold'

theorem map_lambda_id {α : Type} (l : List α) : l.map (fun a => a) = l := by
  induction l with
  | nil => rfl
  | cons x xs ih => rw [List.map_cons, ih]

theorem crossover_keys_total {kl : Nat} (h9 : kl ≤ 9) (h2 : 2 ≤ kl)
    {k1 k2 : List Char}
    (hpk1 : k1.Perm (digitsList kl)) (hpk2 : k2.Perm (digitsList kl))
    (pts : Nat × Nat) :
    ∃ c, crossover_keys k1 k2 pts = some c ∧ c.Perm (digitsList kl) := by
  have hl1 : k1.length = kl := hpk1.length_eq.trans (digitsList_length kl)
  have hk1nd : k1.Nodup := hpk1.nodup_iff.mpr (digitsList_nodup h9)
  have hgd : ∀ j, (hj : j < k1.length) → k1.getD j '0' = k1[j] := by
    intro j hj
    rw [List.getD_eq_getElem?_getD, List.getElem?_eq_getElem hj]
    rfl
  simp only [crossover_keys, hl1]
  rw [if_neg (by omega : ¬ (kl < 2))]
  set p1 := min (min pts.1 pts.2) kl with hp1def
  set p2 := min (max pts.1 pts.2) kl with hp2def
  have hple : p1 ≤ p2 := min_le_min min_le_max (le_refl kl)
  have hp2kl : p2 ≤ kl := min_le_right _ _
  have hp1kl : p1 ≤ kl := le_trans hple hp2kl
  have hc0len : ((List.range' p1 (p2 - p1)).foldl
      (fun child i => child.set i (k1.getD i '0'))
      (List.replicate kl '0')).length = kl := by
    have h := foldl_set_length (fun i : Nat => i) (fun i => k1.getD i '0')
      (List.range' p1 (p2 - p1)) (List.replicate kl '0')
    rw [h, List.length_replicate]
  have hchild0 : (List.range' p1 (p2 - p1)).foldl
      (fun child i => child.set i (k1.getD i '0')) (List.replicate kl '0') =
      (List.range kl).map
        (fun j => if p1 ≤ j ∧ j < p2 then k1.getD j '0' else '0') := by
    refine List.ext_getElem? ?_
    intro n
    by_cases hn : n < kl
    · have hn2 : n < ((List.range kl).map
          (fun j => if p1 ≤ j ∧ j < p2 then k1.getD j '0' else '0')).length := by
        rw [List.length_map, List.length_range]
        exact hn
      by_cases hmid : p1 ≤ n ∧ n < p2
      · have hmem : n ∈ List.range' p1 (p2 - p1) := by
          rw [List.mem_range']
          exact ⟨n - p1, by omega, by omega⟩
        have hnodup : ((List.range' p1 (p2 - p1)).map (fun i : Nat => i)).Nodup := by
          rw [map_lambda_id]
          exact List.nodup_range' p1 (p2 - p1)
        have h := foldl_set_getElem_mem (fun i : Nat => i) (fun i => k1.getD i '0')
          (List.range' p1 (p2 - p1)) (List.replicate kl '0') n hmem hnodup
          (by rw [List.length_replicate]; exact hn)
        rw [h, List.getElem?_eq_getElem hn2]
        simp only [List.getElem_map, List.getElem_range, if_pos hmid]
      · have hnotmem : ∀ q ∈ List.range' p1 (p2 - p1), q ≠ n := by
          intro q hq heq
          rw [List.mem_range'] at hq
          obtain ⟨u, hu, rfl⟩ := hq
          apply hmid
          constructor <;> omega
        have h := foldl_set_getElem_not_mem (fun i : Nat => i)
          (fun i => k1.getD i '0') n (List.range' p1 (p2 - p1))
          (List.replicate kl '0') hnotmem
        rw [h, List.getElem?_replicate, if_pos hn, List.getElem?_eq_getElem hn2]
        simp only [List.getElem_map, List.getElem_range, if_neg hmid]
    · rw [List.getElem?_eq_none (by rw [hc0len]; omega),
        List.getElem?_eq_none
          (by rw [List.length_map, List.length_range]; omega)]
  rw [hchild0]
  have hfill_nodup : (List.range p1 ++ List.range' p2 (kl - p2)).Nodup := by
    rw [List.nodup_append]
    refine ⟨List.nodup_range p1, List.nodup_range' p2 (kl - p2), ?_⟩
    rw [List.disjoint_left]
    intro a ha hb
    rw [List.mem_range] at ha
    rw [List.mem_range'] at hb
    obtain ⟨u, hu, rfl⟩ := hb
    omega
  have hfill_bound : ∀ j ∈ List.range p1 ++ List.range' p2 (kl - p2), j < kl := by
    intro j hj
    rcases List.mem_append.mp hj with h | h
    · rw [List.mem_range] at h
      omega
    · rw [List.mem_range'] at h
      obtain ⟨u, hu, rfl⟩ := h
      omega
  have hmem_fill : ∀ j, j < kl → ¬ (p1 ≤ j ∧ j < p2) →
      j ∈ List.range p1 ++ List.range' p2 (kl - p2) := by
    intro j hj hnm
    rw [List.mem_append]
    by_cases hjp : j < p1
    · exact Or.inl (List.mem_range.mpr hjp)
    · refine Or.inr ?_
      rw [List.mem_range']
      exact ⟨j - p2, by omega, by omega⟩
  have hzero0 : ∀ j ∈ List.range p1 ++ List.range' p2 (kl - p2),
      (if p1 ≤ j ∧ j < p2 then k1.getD j '0' else '0') = '0' := by
    intro j hj
    rcases List.mem_append.mp hj with h | h
    · rw [List.mem_range] at h
      rw [if_neg (fun hc => by omega)]
    · rw [List.mem_range'] at h
      obtain ⟨u, hu, rfl⟩ := h
      rw [if_neg (fun hc => by omega)]
  have hzm0 : ∀ j, j < kl →
      (if p1 ≤ j ∧ j < p2 then k1.getD j '0' else '0') = '0' →
      j ∈ List.range p1 ++ List.range' p2 (kl - p2) := by
    intro j hj h0
    by_cases hmid : p1 ≤ j ∧ j < p2
    · exfalso
      rw [if_pos hmid] at h0
      have hjk : j < k1.length := by omega
      rw [hgd j hjk] at h0
      exact mem_digitsList_ne_zero h9 (hpk1.subset (List.getElem_mem hjk)) h0
    · exact hmem_fill j hj hmid
  have hinj0 : ∀ j1 j2, j1 < kl → j2 < kl →
      (if p1 ≤ j1 ∧ j1 < p2 then k1.getD j1 '0' else '0') =
        (if p1 ≤ j2 ∧ j2 < p2 then k1.getD j2 '0' else '0') →
      (if p1 ≤ j1 ∧ j1 < p2 then k1.getD j1 '0' else '0') ≠ '0' → j1 = j2 := by
    intro j1 j2 h1 h2 he hnz
    by_cases m1 : p1 ≤ j1 ∧ j1 < p2
    · by_cases m2 : p1 ≤ j2 ∧ j2 < p2
      · rw [if_pos m1] at he hnz
        rw [if_pos m2] at he
        have hj1 : j1 < k1.length := by omega
        have hj2 : j2 < k1.length := by omega
        rw [hgd j1 hj1, hgd j2 hj2] at he
        exact (List.Nodup.getElem_inj_iff hk1nd).mp he
      · rw [if_neg m2] at he
        rw [if_pos m1] at he hnz
        exact absurd he hnz
    · rw [if_neg m1] at hnz
      exact absurd rfl hnz
  have hsub0 : ∀ j, j < kl →
      (if p1 ≤ j ∧ j < p2 then k1.getD j '0' else '0') ≠ '0' →
      (if p1 ≤ j ∧ j < p2 then k1.getD j '0' else '0') ∈ digitsList kl := by
    intro j hj hnz
    by_cases hmid : p1 ≤ j ∧ j < p2
    · rw [if_pos hmid] at hnz ⊢
      have hjk : j < k1.length := by omega
      rw [hgd j hjk] at hnz ⊢
      exact hpk1.subset (List.getElem_mem hjk)
    · rw [if_neg hmid] at hnz
      exact absurd rfl hnz
  obtain ⟨g', pos', hfold, hA, hB, hC⟩ := crossover_fill_go h9 hpk2
    (List.range p1 ++ List.range' p2 (kl - p2))
    (fun j => if p1 ≤ j ∧ j < p2 then k1.getD j '0' else '0') 0
    hfill_nodup hfill_bound (Nat.zero_le kl) hzero0 hzm0 hinj0 hsub0
    (fun idx hidx => absurd hidx (by omega))
  rw [hfold]
  refine ⟨(List.range kl).map g', rfl, ?_⟩
  have hnd : ((List.range kl).map g').Nodup := by
    refine List.Nodup.map_on ?_ (List.nodup_range kl)
    intro x hx y hy hxy
    exact hB x y (List.mem_range.mp hx) (List.mem_range.mp hy) hxy
  have hsubset : (List.range kl).map g' ⊆ digitsList kl := by
    intro x hx
    rw [List.mem_map] at hx
    obtain ⟨j, hjr, rfl⟩ := hx
    exact hC j (List.mem_range.mp hjr)
  refine (hnd.subperm hsubset).perm_of_length_le ?_
  rw [List.length_map, List.length_range, digitsList_length]

theorem mapM_option_some_of {α β : Type} (f : α → Option β) :
    ∀ (l : List α), (∀ a ∈ l, ∃ b, f a = some b) →
      ∃ l2, l.mapM f = some l2 ∧ l2.length = l.length ∧
        ∀ b ∈ l2, ∃ a ∈ l, f a = some b := by
  intro l
  induction l with
  | nil =>
    intro _
    exact ⟨[], rfl, rfl, fun b hb => absurd hb (List.not_mem_nil b)⟩
  | cons a t ih =>
    intro h
    obtain ⟨b, hb⟩ := h a (List.mem_cons_self a t)
    obtain ⟨t2, ht2, hlen, hmem⟩ := ih (fun x hx => h x (List.mem_cons_of_mem a hx))
    refine ⟨b :: t2, ?_, by simp [hlen], ?_⟩
    · rw [List.mapM_cons, hb, ht2]
      rfl
    · intro b' hb'
      rcases List.mem_cons.mp hb' with rfl | hb'
      · exact ⟨a, List.mem_cons_self a t, hb⟩
      · obtain ⟨a', ha', hfa'⟩ := hmem b' hb'
        exact ⟨a', List.mem_cons_of_mem a ha', hfa'⟩

theorem ga_refill {kl : Nat} (h9 : kl ≤ 9) (h2 : 2 ≤ kl) (o : GAOracle)
    (gen : Nat) (sel : List (List Char)) (hsel1 : 1 ≤ sel.length)
    (hselp : ∀ k ∈ sel, k.Perm (digitsList kl)) :
    ∀ (slots : List Nat) (acc : List (List Char)),
      (∀ k ∈ acc, k.Perm (digitsList kl)) →
      ∃ res, (slots.foldlM (fun newpop slot => do
          let p1 := sel.getD (o.parentA gen slot % sel.length) []
          let p2 := sel.getD (o.parentB gen slot % sel.length) []
          let child ← crossover_keys p1 p2 (o.crossPts gen slot)
          let child ← if o.mutCoin gen slot then mutate_key child (o.mutSwap gen slot)
            else pure child
          pure (newpop ++ [child])) acc) = some res ∧
        res.length = acc.length + slots.length ∧
        ∀ k ∈ res, k.Perm (digitsList kl) := by
  intro slots
  induction slots with
  | nil =>
    intro acc hacc
    exact ⟨acc, rfl, by simp, hacc⟩
  | cons s slots' ih =>
    intro acc hacc
    have hidx1 : o.parentA gen s % sel.length < sel.length :=
      Nat.mod_lt _ (by omega)
    have hidx2 : o.parentB gen s % sel.length < sel.length :=
      Nat.mod_lt _ (by omega)
    have hp1mem : sel.getD (o.parentA gen s % sel.length) [] ∈ sel := by
      rw [List.getD_eq_getElem?_getD, List.getElem?_eq_getElem hidx1]
      exact List.getElem_mem hidx1
    have hp2mem : sel.getD (o.parentB gen s % sel.length) [] ∈ sel := by
      rw [List.getD_eq_getElem?_getD, List.getElem?_eq_getElem hidx2]
      exact List.getElem_mem hidx2
    obtain ⟨c, hc, hcp⟩ := crossover_keys_total h9 h2 (hselp _ hp1mem)
      (hselp _ hp2mem) (o.crossPts gen s)
    have hclen : 2 ≤ c.length := by
      rw [hcp.length_eq.trans (digitsList_length kl)]
      exact h2
    have hchild : ∃ ch, (if o.mutCoin gen s then mutate_key c (o.mutSwap gen s)
        else pure c) = some ch ∧ ch.Perm (digitsList kl) := by
      by_cases hcoin : o.mutCoin gen s
      · rw [if_pos hcoin]
        obtain ⟨m, hm, hmp⟩ := mutate_key_perm c (o.mutSwap gen s) hclen
        exact ⟨m, hm, hmp.trans hcp⟩
      · rw [if_neg hcoin]
        exact ⟨c, rfl, hcp⟩
    obtain ⟨ch, hch, hchp⟩ := hchild
    have hacc' : ∀ k ∈ acc ++ [ch], k.Perm (digitsList kl) := by
      intro k hk
      rcases List.mem_append.mp hk with h | h
      · exact hacc k h
      · rw [List.mem_singleton] at h
        rw [h]
        exact hchp
    obtain ⟨res, hres, hreslen, hresp⟩ := ih _ hacc'
    refine ⟨res, ?_, ?_, hresp⟩
    · rw [List.foldlM_cons]
      dsimp only
      rw [hc]
      simp only [Option.bind_eq_bind, Option.some_bind]
      by_cases hcoin : o.mutCoin gen s
      · rw [if_pos hcoin] at hch
        rw [if_pos hcoin, hch]
        simp only [Option.some_bind, Option.pure_def]
        exact hres
      · rw [if_neg hcoin] at hch
        obtain rfl := Option.some.inj hch
        rw [if_neg hcoin]
        simp only [Option.pure_def, Option.some_bind]
        exact hres
    · rw [hreslen]
      simp only [List.length_append, List.length_cons, List.length_nil]
      omega

theorem gaStep_invariant (ct : List Char) {kl : Nat} (popsize : Nat)
    (o : GAOracle) (gen : Nat) (h9 : kl ≤ 9) (h2 : 2 ≤ kl)
    (hpop2 : 1 ≤ popsize / 2) {pop : List (List Char)}
    (hlen : pop.length = popsize)
    (hall : ∀ k ∈ pop, k.Perm (digitsList kl)) :
    ∃ pop2, gaStep ct popsize o gen pop = some pop2 ∧ pop2.length = popsize ∧
      ∀ k ∈ pop2, k.Perm (digitsList kl) := by
  have hex : ∀ a ∈ pop, ∃ b, (do
      let pt ← decrypt ct a
      pure (a, pt, evaluate_plaintext pt) : Option (List Char × List Char × ℚ)) =
      some b := by
    intro a ha
    have halen : a.length = kl := (hall a ha).length_eq.trans (digitsList_length kl)
    have hperm' : a.Perm (digitsList a.length) := by
      rw [halen]
      exact hall a ha
    have hnk : normalize_key a = some a :=
      normalize_key_of_perm (by omega) (by omega) hperm'
    obtain ⟨pt, hdec⟩ := decrypt_total ct hnk hperm' (by omega)
    refine ⟨(a, pt, evaluate_plaintext pt), ?_⟩
    rw [show (do
      let pt ← decrypt ct a
      pure (a, pt, evaluate_plaintext pt) : Option (List Char × List Char × ℚ)) =
      (decrypt ct a).bind (fun pt => some (a, pt, evaluate_plaintext pt)) from rfl]
    rw [hdec]
    rfl
  obtain ⟨fitness, hmapM, hflen, hfmem⟩ := mapM_option_some_of
    (fun a => do
      let pt ← decrypt ct a
      pure (a, pt, evaluate_plaintext pt) : List Char → Option (List Char × List Char × ℚ))
    pop hex
  have hmapM2 : List.mapM (fun key => (decrypt ct key).bind
      fun pt => pure (key, pt, evaluate_plaintext pt)) pop = some fitness := hmapM
  simp only [gaStep, Option.bind_eq_bind]
  rw [hmapM2]
  have hselp : ∀ k ∈ ((sortDescBy (fun t => t.2.2) fitness).take
      (popsize / 2)).map (fun t => t.1), k.Perm (digitsList kl) := by
    intro k hk
    rw [List.mem_map] at hk
    obtain ⟨t, ht, rfl⟩ := hk
    have htmem : t ∈ sortDescBy (fun t => t.2.2) fitness :=
      List.take_subset _ _ ht
    have htfit : t ∈ fitness :=
      ((sortDescBy_perm (fun t => t.2.2) fitness).mem_iff).mp htmem
    obtain ⟨a, ha, hfa⟩ := hfmem t htfit
    cases hdec : decrypt ct a with
    | none =>
      rw [show (do
        let pt ← decrypt ct a
        pure (a, pt, evaluate_plaintext pt) : Option (List Char × List Char × ℚ)) =
        (decrypt ct a).bind (fun pt => some (a, pt, evaluate_plaintext pt)) from rfl,
        hdec] at hfa
      exact absurd hfa (by simp)
    | some pt =>
      rw [show (do
        let pt ← decrypt ct a
        pure (a, pt, evaluate_plaintext pt) : Option (List Char × List Char × ℚ)) =
        (decrypt ct a).bind (fun pt => some (a, pt, evaluate_plaintext pt)) from rfl,
        hdec] at hfa
      simp only [Option.some_bind] at hfa
      obtain rfl := Option.some.inj hfa
      exact hall a ha
  have hsellen : (((sortDescBy (fun t => t.2.2) fitness).take
      (popsize / 2)).map (fun t => t.1)).length = popsize / 2 := by
    rw [List.length_map, List.length_take,
      (sortDescBy_perm (fun t => t.2.2) fitness).length_eq, hflen, hlen]
    have hd : popsize / 2 ≤ popsize := Nat.div_le_self popsize 2
    omega
  have hsel1 : 1 ≤ (((sortDescBy (fun t => t.2.2) fitness).take
      (popsize / 2)).map (fun t => t.1)).length := by
    rw [hsellen]
    exact hpop2
  obtain ⟨res, hres, hreslen, hresp⟩ := ga_refill h9 h2 o gen _ hsel1 hselp
    (List.range (popsize - (((sortDescBy (fun t => t.2.2) fitness).take
      (popsize / 2)).map (fun t => t.1)).length)) _ hselp
  refine ⟨res, hres, ?_, hresp⟩
  rw [hreslen, List.length_range]
  rw [hsellen] at *
  have hd : popsize / 2 ≤ popsize := Nat.div_le_self popsize 2
  omega

theorem gaPopAt_invariant (ct : List Char) {kl : Nat} (popsize : Nat)
    (o : GAOracle) (h9 : kl ≤ 9) (h2 : 2 ≤ kl) (hpop2 : 1 ≤ popsize / 2) :
    ∀ gen, ∃ pop, gaPopAt ct kl popsize o gen = some pop ∧
      pop.length = popsize ∧ ∀ k ∈ pop, k.Perm (digitsList kl) := by
  intro gen
  induction gen with
  | zero =>
    refine ⟨_, rfl, ?_, ?_⟩
    · rw [List.length_map, List.length_range]
    · intro k hk
      rw [List.mem_map] at hk
      obtain ⟨t, _, rfl⟩ := hk
      exact generate_random_key_perm h9 _
  | succ gen ih =>
    obtain ⟨pop, hpop, hplen, hpall⟩ := ih
    obtain ⟨pop2, hstep, hl2, hp2⟩ :=
      gaStep_invariant ct popsize o gen h9 h2 hpop2 hplen hpall
    refine ⟨pop2, ?_, hl2, hp2⟩
    show (gaPopAt ct kl popsize o gen).bind (gaStep ct popsize o gen) = some pop2
    rw [hpop]
    exact hstep

/-- **C2 (amended).** For key lengths `2 ≤ key_length ≤ 9` and population
size at least 2, every generation's population of
`genetic_algorithm_attack` consists exactly of `population_size` individuals
that are all permutation keys of `1 .. key_length`; on permutation parents
of such lengths `crossover_keys` succeeds and returns a permutation child,
and `mutate_key` succeeds and maps permutation keys to permutation keys.
For `key_length = 1` both `crossover_keys` and `mutate_key` raise
`ValueError` (the Python `random.sample(range(1), 2)` fails), modelled here
as returning `none` for any parents or key of length below 2. -/
theorem c2_ga_population (ct : List Char) (kl popsize : Nat) (o : GAOracle)
    (h9 : kl ≤ 9) (h2 : 2 ≤ kl) (hpop : 2 ≤ popsize) :
    (∀ gen, ∃ pop, gaPopAt ct kl popsize o gen = some pop ∧
        pop.length = popsize ∧ ∀ k ∈ pop, k.Perm (digitsList kl)) ∧
    (∀ k1 k2 pts, k1.Perm (digitsList kl) → k2.Perm (digitsList kl) →
        ∃ c, crossover_keys k1 k2 pts = some c ∧ c.Perm (digitsList kl)) ∧
    (∀ key ij, key.Perm (digitsList kl) →
        ∃ m, mutate_key key ij = some m ∧ m.Perm (digitsList kl)) ∧
    (∀ k1 k2 pts, k1.length < 2 → crossover_keys k1 k2 pts = none) ∧
    (∀ key ij, key.length < 2 → mutate_key key ij = none) := by
  refine ⟨?_, ?_, ?_, ?_, ?_⟩
  · exact gaPopAt_invariant ct popsize o h9 h2 (by omega)
  · intro k1 k2 pts hk1 hk2
    exact crossover_keys_total h9 h2 hk1 hk2 pts
  · intro key ij hkey
    have hkl : 2 ≤ key.length := by
      rw [hkey.length_eq.trans (digitsList_length kl)]
      exact h2
    obtain ⟨m, hm, hmp⟩ := mutate_key_perm key ij hkl
    exact ⟨m, hm, hmp.trans hkey⟩
  · intro k1 k2 pts hshort
    exact crossover_keys_short k2 pts hshort
  · intro key ij hshort
    exact mutate_key_short ij hshort

/-- Witness for `c2_ga_population` at ciphertext `"AB"`, key length 2,
population size 2 and a constant oracle. -/
theorem c2_ga_population_witness :
    (∀ gen, ∃ pop, gaPopAt "AB".toList 2 2
        ⟨fun _ => [], fun _ _ => 0, fun _ _ => 0, fun _ _ => (0, 0),
          fun _ _ => false, fun _ _ => (0, 0)⟩ gen = some pop ∧
        pop.length = 2 ∧ ∀ k ∈ pop, k.Perm (digitsList 2)) ∧
    (∀ k1 k2 pts, k1.Perm (digitsList 2) → k2.Perm (digitsList 2) →
        ∃ c, crossover_keys k1 k2 pts = some c ∧ c.Perm (digitsList 2)) ∧
    (∀ key ij, key.Perm (digitsList 2) →
        ∃ m, mutate_key key ij = some m ∧ m.Perm (digitsList 2)) ∧
    (∀ k1 k2 pts, k1.length < 2 → crossover_keys k1 k2 pts = none) ∧
    (∀ key ij, key.length < 2 → mutate_key key ij = none) :=
  c2_ga_population "AB".toList 2 2
    ⟨fun _ => [], fun _ _ => 0, fun _ _ => 0, fun _ _ => (0, 0),
      fun _ _ => false, fun _ _ => (0, 0)⟩ (by decide) (by decide) (by decide)

/-- **C2 (counterexample).** For `key_length = 10` the very first population
already contains a non-permutation individual: `generate_random_key`
concatenates the multi-digit decimal strings, producing the 11-character
string `"12345678910"`, which is not a permutation of the digit characters
`1 .. 10` and is not even a valid key. -/
theorem c2_population_not_perm :
    gaPopAt [] 10 1
      ⟨fun _ => [], fun _ _ => 0, fun _ _ => 0, fun _ _ => (0, 0),
        fun _ _ => false, fun _ _ => (0, 0)⟩ 0 =
      some ["12345678910".toList] ∧
    ¬ ("12345678910".toList.Perm (digitsList 10)) ∧
    validate_key "12345678910".toList = false := by
  refine ⟨?_, ?_, ?_⟩ <;> decide

/-! ## Hill climbing -/

theorem slf_he_eq_eh :
    score_letter_frequency "HE".toList = score_letter_frequency "EH".toList := rfl

theorem dict_eh : score_text_by_dictionary "EH".toList = 0 := rfl

theorem dict_he :
    score_text_by_dictionary "HE".toList = ((2 : Nat) : ℚ) / ((2 : Nat) : ℚ) := rfl

theorem big_eh : score_bigrams "EH".toList = ((0 : Nat) : ℚ) / ((1 : Nat) : ℚ) := rfl

theorem big_he : score_bigrams "HE".toList = ((1 : Nat) : ℚ) / ((1 : Nat) : ℚ) := rfl

theorem tri_eh : score_trigrams "EH".toList = 0 := rfl

theorem tri_he : score_trigrams "HE".toList = 0 := rfl

theorem quad_eh : score_quadgrams "EH".toList = 0 := rfl

theorem quad_he : score_quadgrams "HE".toList = 0 := rfl

theorem chi_squared_nonneg (text : List Char) (chi : ℚ)
    (h : chi_squared text = some chi) : 0 ≤ chi := by
  simp only [chi_squared] at h
  by_cases h0 : ((text.map pyUpper).filter pyIsAlpha).length = 0
  · rw [if_pos h0] at h
    exact absurd h (by simp)
  · rw [if_neg h0] at h
    obtain rfl := Option.some.inj h
    refine List.sum_nonneg ?_
    intro x hx
    rw [List.mem_map] at hx
    obtain ⟨letter, _, rfl⟩ := hx
    by_cases hexp : (0 : ℚ) <
        englishFreq letter / 100 * ((text.map pyUpper).filter pyIsAlpha).length
    · rw [if_pos hexp]
      exact div_nonneg (sq_nonneg _) (le_of_lt hexp)
    · rw [if_neg hexp]

theorem score_letter_frequency_bounds (text : List Char) :
    0 ≤ score_letter_frequency text ∧ score_letter_frequency text ≤ 1 := by
  rw [score_letter_frequency]
  cases hchi : chi_squared text with
  | none => exact ⟨le_refl 0, by norm_num⟩
  | some chi =>
    have hnn := chi_squared_nonneg text chi hchi
    constructor
    · exact le_max_left 0 _
    · refine max_le (by norm_num) ?_
      have : 0 ≤ chi / 500 := by positivity
      linarith

theorem eh_lt_he :
    evaluate_plaintext "EH".toList < evaluate_plaintext "HE".toList := by
  show score_with_dictionary "EH".toList (score_text_by_dictionary "EH".toList) <
    score_with_dictionary "HE".toList (score_text_by_dictionary "HE".toList)
  rw [dict_eh, dict_he, score_with_dictionary, score_with_dictionary]
  rw [show score_text "EH".toList = score_letter_frequency "EH".toList * 30 +
      score_bigrams "EH".toList * 25 + score_trigrams "EH".toList * 25 +
      score_quadgrams "EH".toList * 20 from by
    rw [score_text, if_neg (by decide : ¬ ("EH".toList.length < 2))]]
  rw [show score_text "HE".toList = score_letter_frequency "HE".toList * 30 +
      score_bigrams "HE".toList * 25 + score_trigrams "HE".toList * 25 +
      score_quadgrams "HE".toList * 20 from by
    rw [score_text, if_neg (by decide : ¬ ("HE".toList.length < 2))]]
  rw [big_eh, big_he, tri_eh, tri_he, quad_eh, quad_he, slf_he_eq_eh]
  obtain ⟨hS0, hS1⟩ := score_letter_frequency_bounds "EH".toList
  set S := score_letter_frequency "EH".toList with hSdef
  have e1 : (S * 30 + ((0 : Nat) : ℚ) / ((1 : Nat) : ℚ) * 25 + 0 * 25 + 0 * 20) *
      (1 + 0 * 0.5) = S * 30 := by
    push_cast
    ring
  have e2 : (S * 30 + ((1 : Nat) : ℚ) / ((1 : Nat) : ℚ) * 25 + 0 * 25 + 0 * 20) *
      (1 + ((2 : Nat) : ℚ) / ((2 : Nat) : ℚ) * 0.5) = S * 45 + 75 / 2 := by
    push_cast
    norm_num
    ring
  rw [e1, e2]
  rw [min_eq_left (by linarith), min_eq_left (by linarith)]
  linarith

theorem hcStep_total (ct : List Char) {kl : Nat} (o : HCOracle) (h9 : kl ≤ 9)
    (h2 : 2 ≤ kl) (st : HCState) (i : Nat)
    (hck : st.currentKey.Perm (digitsList kl)) :
    ∃ st', hcStep ct kl o st i = some st' ∧
      st'.currentKey.Perm (digitsList kl) ∧
      st.bestScore ≤ st'.bestScore ∧
      ∀ b0, st.bestScore = st.accepted.foldl max b0 →
        st'.bestScore = st'.accepted.foldl max b0 := by
  have hckl : st.currentKey.length = kl :=
    hck.length_eq.trans (digitsList_length kl)
  obtain ⟨nk, hswap, hnkperm⟩ := swap_random_positions_perm st.currentKey
    (o.swapIdx i) (by omega)
  have hnkp : nk.Perm (digitsList kl) := hnkperm.trans hck
  have hnkl : nk.length = kl := hnkp.length_eq.trans (digitsList_length kl)
  have hnkp2 : nk.Perm (digitsList nk.length) := by
    rw [hnkl]
    exact hnkp
  obtain ⟨nt, hnt⟩ := decrypt_total ct
    (normalize_key_of_perm (by omega) (by omega) hnkp2) hnkp2 (by omega)
  simp only [hcStep, hswap, hnt, Option.bind_eq_bind, Option.some_bind,
    Option.pure_def]
  by_cases hacc : st.currentScore < evaluate_plaintext nt
  · rw [if_pos hacc]
    by_cases hbest : st.bestScore < evaluate_plaintext nt
    · rw [if_pos hbest]
      refine ⟨_, rfl, hnkp, le_of_lt hbest, ?_⟩
      intro b0 hP
      show evaluate_plaintext nt = (st.accepted ++ [evaluate_plaintext nt]).foldl max b0
      rw [List.foldl_append, ← hP]
      simp only [List.foldl_cons, List.foldl_nil]
      exact (max_eq_right (le_of_lt hbest)).symm
    · rw [if_neg hbest]
      refine ⟨_, rfl, hnkp, le_refl _, ?_⟩
      intro b0 hP
      show st.bestScore = (st.accepted ++ [evaluate_plaintext nt]).foldl max b0
      rw [List.foldl_append, ← hP]
      simp only [List.foldl_cons, List.foldl_nil]
      exact (max_eq_left (le_of_not_lt hbest)).symm
  · rw [if_neg hacc]
    by_cases hres : 100 ≤ st.noImp + 1
    · rw [if_pos hres]
      have hrkp : (generate_random_key kl (o.initKey st.restarts)).Perm
          (digitsList kl) := generate_random_key_perm h9 _
      have hrkl : (generate_random_key kl (o.initKey st.restarts)).length = kl :=
        hrkp.length_eq.trans (digitsList_length kl)
      have hrkp2 : (generate_random_key kl (o.initKey st.restarts)).Perm
          (digitsList (generate_random_key kl (o.initKey st.restarts)).length) := by
        rw [hrkl]
        exact hrkp
      obtain ⟨rt, hrt⟩ := decrypt_total ct
        (normalize_key_of_perm (by omega) (by omega) hrkp2) hrkp2 (by omega)
      simp only [hrt, Option.some_bind]
      exact ⟨_, rfl, hrkp, le_refl _, fun b0 hP => hP⟩
    · rw [if_neg hres]
      exact ⟨_, rfl, hck, le_refl _, fun b0 hP => hP⟩

theorem hcStep_mono (ct : List Char) (kl : Nat) (o : HCOracle) (st st' : HCState)
    (i : Nat) (h : hcStep ct kl o st i = some st') :
    st.bestScore ≤ st'.bestScore := by
  simp only [hcStep, Option.bind_eq_bind, Option.pure_def] at h
  cases hswap : swap_random_positions st.currentKey (o.swapIdx i) with
  | none =>
    rw [hswap] at h
    exact absurd h (by simp)
  | some nk =>
    rw [hswap] at h
    simp only [Option.some_bind] at h
    cases hnt : decrypt ct nk with
    | none =>
      rw [hnt] at h
      exact absurd h (by simp)
    | some nt =>
      rw [hnt] at h
      simp only [Option.some_bind] at h
      by_cases hacc : st.currentScore < evaluate_plaintext nt
      · rw [if_pos hacc] at h
        by_cases hbest : st.bestScore < evaluate_plaintext nt
        · rw [if_pos hbest] at h
          obtain rfl := Option.some.inj h
          exact le_of_lt hbest
        · rw [if_neg hbest] at h
          obtain rfl := Option.some.inj h
          exact le_refl _
      · rw [if_neg hacc] at h
        by_cases hres : 100 ≤ st.noImp + 1
        · rw [if_pos hres] at h
          cases hrt : decrypt ct (generate_random_key kl (o.initKey st.restarts)) with
          | none =>
            rw [hrt] at h
            exact absurd h (by simp)
          | some rt =>
            rw [hrt] at h
            simp only [Option.some_bind] at h
            obtain rfl := Option.some.inj h
            exact le_refl _
        · rw [if_neg hres] at h
          obtain rfl := Option.some.inj h
          exact le_refl _

theorem hcFold_total (ct : List Char) {kl : Nat} (o : HCOracle) (h9 : kl ≤ 9)
    (h2 : 2 ≤ kl) :
    ∀ (l : List Nat) (st : HCState), st.currentKey.Perm (digitsList kl) →
      ∃ st', l.foldlM (hcStep ct kl o) st = some st' ∧
        st'.currentKey.Perm (digitsList kl) ∧ st.bestScore ≤ st'.bestScore ∧
        ∀ b0, st.bestScore = st.accepted.foldl max b0 →
          st'.bestScore = st'.accepted.foldl max b0 := by
  intro l
  induction l with
  | nil =>
    intro st hck
    exact ⟨st, rfl, hck, le_refl _, fun _ h => h⟩
  | cons a t ih =>
    intro st hck
    obtain ⟨st1, h1step, hperm1, hmono1, hP1⟩ := hcStep_total ct o h9 h2 st a hck
    obtain ⟨st2, hfold, hperm2, hmono2, hP2⟩ := ih st1 hperm1
    refine ⟨st2, ?_, hperm2, le_trans hmono1 hmono2,
      fun b0 hP => hP2 b0 (hP1 b0 hP)⟩
    rw [List.foldlM_cons, h1step]
    simp only [Option.bind_eq_bind, Option.some_bind]
    exact hfold

theorem hcInit_total (ct : List Char) {kl : Nat} (o : HCOracle) (h9 : kl ≤ 9)
    (h1 : 1 ≤ kl) :
    ∃ st0, hcInit ct kl o = some st0 ∧ st0.currentKey.Perm (digitsList kl) ∧
      st0.accepted = [] ∧
      st0.bestScore = st0.accepted.foldl max st0.bestScore := by
  have hkp : (generate_random_key kl (o.initKey 0)).Perm (digitsList kl) :=
    generate_random_key_perm h9 _
  have hkl : (generate_random_key kl (o.initKey 0)).length = kl :=
    hkp.length_eq.trans (digitsList_length kl)
  have hkp2 : (generate_random_key kl (o.initKey 0)).Perm
      (digitsList (generate_random_key kl (o.initKey 0)).length) := by
    rw [hkl]
    exact hkp
  obtain ⟨t, ht⟩ := decrypt_total ct
    (normalize_key_of_perm (by omega) (by omega) hkp2) hkp2 (by omega)
  have hinit : hcInit ct kl o = some
      { currentKey := generate_random_key kl (o.initKey 0)
        currentText := t
        currentScore := evaluate_plaintext t
        bestKey := generate_random_key kl (o.initKey 0)
        bestText := t
        bestScore := evaluate_plaintext t
        noImp := 0
        restarts := 1
        evals := [evaluate_plaintext t]
        accepted := [] } := by
    simp only [hcInit, ht, Option.bind_eq_bind, Option.some_bind, Option.pure_def]
  exact ⟨_, hinit, hkp, rfl, rfl⟩

theorem hcRun_succ (ct : List Char) (kl : Nat) (o : HCOracle) (k : Nat) :
    hcRun ct kl o (k + 1) = (hcRun ct kl o k).bind
      (fun s => hcStep ct kl o s k) := by
  unfold hcRun
  cases hcInit ct kl o with
  | none => rfl
  | some st0 =>
    show (List.range (k + 1)).foldlM (hcStep ct kl o) st0 =
      ((List.range k).foldlM (hcStep ct kl o) st0).bind
        (fun s => hcStep ct kl o s k)
    rw [List.range_succ, List.foldlM_append]
    cases hfold : (List.range k).foldlM (hcStep ct kl o) st0 with
    | none => rfl
    | some s =>
      show [k].foldlM (hcStep ct kl o) s = hcStep ct kl o s k
      rw [show ([k].foldlM (hcStep ct kl o) s) =
        (hcStep ct kl o s k).bind (fun b => some b) from rfl]
      cases hcStep ct kl o s k with
      | none => rfl
      | some x => rfl

theorem hcRun_mono (ct : List Char) (kl : Nat) (o : HCOracle) :
    ∀ d i sti stj, hcRun ct kl o i = some sti →
      hcRun ct kl o (i + d) = some stj → sti.bestScore ≤ stj.bestScore := by
  intro d
  induction d with
  | zero =>
    intro i sti stj hi hj
    simp only [Nat.add_zero] at hj
    rw [hi] at hj
    obtain rfl := Option.some.inj hj
    exact le_refl _
  | succ d ih =>
    intro i sti stj hi hj
    rw [show i + (d + 1) = (i + d) + 1 from rfl, hcRun_succ] at hj
    cases hmid : hcRun ct kl o (i + d) with
    | none =>
      rw [hmid] at hj
      exact absurd hj (by simp)
    | some mid =>
      rw [hmid] at hj
      have hj2 : hcStep ct kl o mid (i + d) = some stj := hj
      exact le_trans (ih i sti mid hi hmid)
        (hcStep_mono ct kl o mid stj (i + d) hj2)

theorem option_bind_some {α β : Type} (a : α) (f : α → Option β) :
    Option.bind (some a) f = f a := rfl

/-- **C4 (amended).** For every run of `hill_climbing_attack` with
`2 ≤ key_length ≤ 9`, the run completes without error and the returned score
equals the maximum of the initial key's score and the scores of the accepted
neighbors (the fold of `max` over the accepted-score trace); the best-so-far
score is non-decreasing over successive iterations within the run.  Random
restart keys are evaluated but never folded into the best.  For
`key_length = 1` and at least one iteration the attack raises `ValueError`
(`random.sample(range(1), 2)` inside `swap_random_positions` at iteration
0), modelled as the run returning `none`. -/
theorem c4_hill_climbing (ct : List Char) (kl iters : Nat) (o : HCOracle)
    (h9 : kl ≤ 9) (h2 : 2 ≤ kl) :
    (∃ st0 st, hcInit ct kl o = some st0 ∧ hcRun ct kl o iters = some st ∧
      hill_climbing_attack ct kl iters o =
        some (st.bestKey, st.bestText, st.bestScore) ∧
      st.bestScore = st.accepted.foldl max st0.bestScore) ∧
    (∀ i j sti stj, i ≤ j → hcRun ct kl o i = some sti →
      hcRun ct kl o j = some stj → sti.bestScore ≤ stj.bestScore) ∧
    (∀ (o1 : HCOracle) (n : Nat), 1 ≤ n →
      hill_climbing_attack ct 1 n o1 = none) := by
  refine ⟨?_, ?_, ?_⟩
  · obtain ⟨st0, hinit, hperm0, hacc0, hP0⟩ := hcInit_total ct o h9 (by omega)
    obtain ⟨st, hfold, hperm, hmono, hP⟩ :=
      hcFold_total ct o h9 h2 (List.range iters) st0 hperm0
    have hrun : hcRun ct kl o iters = some st := by
      unfold hcRun
      rw [hinit]
      exact hfold
    refine ⟨st0, st, hinit, hrun, ?_, hP st0.bestScore hP0⟩
    unfold hill_climbing_attack
    rw [hrun]
    rfl
  · intro i j sti stj hij hi hj
    have hji : j = i + (j - i) := by omega
    rw [hji] at hj
    exact hcRun_mono ct kl o (j - i) i sti stj hi hj
  · intro o1 n hn
    obtain ⟨st0, hinit, hperm0, hacc0, hP0⟩ :=
      @hcInit_total ct 1 o1 (by omega) (by omega)
    have hckl : st0.currentKey.length = 1 :=
      hperm0.length_eq.trans (digitsList_length 1)
    have hsw : swap_random_positions st0.currentKey (o1.swapIdx 0) = none :=
      swap_random_positions_short _ (by omega)
    have hstep0 : hcStep ct 1 o1 st0 0 = none := by
      simp only [hcStep, hsw, Option.bind_eq_bind, Option.none_bind]
    have hrun : hcRun ct 1 o1 n = none := by
      unfold hcRun
      rw [hinit, option_bind_some]
      obtain ⟨m, rfl⟩ : ∃ m, n = m + 1 := ⟨n - 1, by omega⟩
      rw [List.range_succ_eq_map, List.foldlM_cons, hstep0]
      rfl
    unfold hill_climbing_attack
    rw [hrun]
    rfl

/-- Witness for `c4_hill_climbing` at ciphertext `"AB"`, key length 2, zero
iterations and a constant oracle. -/
theorem c4_hill_climbing_witness :
    (∃ st0 st, hcInit "AB".toList 2 ⟨fun _ => [], fun _ => (0, 0)⟩ = some st0 ∧
      hcRun "AB".toList 2 ⟨fun _ => [], fun _ => (0, 0)⟩ 0 = some st ∧
      hill_climbing_attack "AB".toList 2 0 ⟨fun _ => [], fun _ => (0, 0)⟩ =
        some (st.bestKey, st.bestText, st.bestScore) ∧
      st.bestScore = st.accepted.foldl max st0.bestScore) ∧
    (∀ i j sti stj, i ≤ j →
      hcRun "AB".toList 2 ⟨fun _ => [], fun _ => (0, 0)⟩ i = some sti →
      hcRun "AB".toList 2 ⟨fun _ => [], fun _ => (0, 0)⟩ j = some stj →
      sti.bestScore ≤ stj.bestScore) ∧
    (∀ (o1 : HCOracle) (n : Nat), 1 ≤ n →
      hill_climbing_attack "AB".toList 1 n o1 = none) :=
  c4_hill_climbing "AB".toList 2 0 ⟨fun _ => [], fun _ => (0, 0)⟩
    (by decide) (by decide)

theorem hc_ex_step : ∀ k i, k ≤ 98 →
    hcStep "EH".toList 3 ⟨fun t => [t, 1 - t, 2], fun _ => (1, 2)⟩
      { currentKey := "123".toList
        currentText := "EH".toList
        currentScore := evaluate_plaintext "EH".toList
        bestKey := "123".toList
        bestText := "EH".toList
        bestScore := evaluate_plaintext "EH".toList
        noImp := k
        restarts := 1
        evals := List.replicate (k + 1) (evaluate_plaintext "EH".toList)
        accepted := [] } i =
    some { currentKey := "123".toList
           currentText := "EH".toList
           currentScore := evaluate_plaintext "EH".toList
           bestKey := "123".toList
           bestText := "EH".toList
           bestScore := evaluate_plaintext "EH".toList
           noImp := k + 1
           restarts := 1
           evals := List.replicate (k + 2) (evaluate_plaintext "EH".toList)
           accepted := [] } := by
  intro k i hk
  have hswap : swap_random_positions "123".toList ((1, 2) : Nat × Nat) =
      some "132".toList := by decide
  have hdec : decrypt "EH".toList "132".toList = some "EH".toList := by decide
  simp only [hcStep, hswap, hdec, Option.bind_eq_bind, Option.some_bind,
    Option.pure_def]
  rw [if_neg (lt_irrefl (evaluate_plaintext "EH".toList))]
  rw [if_neg (show ¬ (100 ≤ k + 1) from by omega)]
  have hrep : List.replicate (k + 1) (evaluate_plaintext "EH".toList) ++
      [evaluate_plaintext "EH".toList] =
      List.replicate (k + 2) (evaluate_plaintext "EH".toList) := by
    rw [← List.replicate_succ']
  rw [hrep]

theorem hc_ex_run : ∀ k, k ≤ 99 →
    hcRun "EH".toList 3 ⟨fun t => [t, 1 - t, 2], fun _ => (1, 2)⟩ k =
    some { currentKey := "123".toList
           currentText := "EH".toList
           currentScore := evaluate_plaintext "EH".toList
           bestKey := "123".toList
           bestText := "EH".toList
           bestScore := evaluate_plaintext "EH".toList
           noImp := k
           restarts := 1
           evals := List.replicate (k + 1) (evaluate_plaintext "EH".toList)
           accepted := [] } := by
  intro k
  induction k with
  | zero =>
    intro _
    have hdec0 : decrypt "EH".toList (generate_random_key 3 [0, 1 - 0, 2]) =
        some "EH".toList := by decide
    have hinit : hcInit "EH".toList 3
        ⟨fun t => [t, 1 - t, 2], fun _ => (1, 2)⟩ = some
        { currentKey := "123".toList
          currentText := "EH".toList
          currentScore := evaluate_plaintext "EH".toList
          bestKey := "123".toList
          bestText := "EH".toList
          bestScore := evaluate_plaintext "EH".toList
          noImp := 0
          restarts := 1
          evals := List.replicate 1 (evaluate_plaintext "EH".toList)
          accepted := [] } := by
      simp only [hcInit, hdec0, Option.bind_eq_bind, Option.some_bind,
        Option.pure_def]
      rfl
    unfold hcRun
    rw [hinit]
    rfl
  | succ k ih =>
    intro hk1
    rw [hcRun_succ, ih (by omega), option_bind_some]
    exact hc_ex_step k k (by omega)

theorem hc_ex_restart :
    hcStep "EH".toList 3 ⟨fun t => [t, 1 - t, 2], fun _ => (1, 2)⟩
      { currentKey := "123".toList
        currentText := "EH".toList
        currentScore := evaluate_plaintext "EH".toList
        bestKey := "123".toList
        bestText := "EH".toList
        bestScore := evaluate_plaintext "EH".toList
        noImp := 99
        restarts := 1
        evals := List.replicate 100 (evaluate_plaintext "EH".toList)
        accepted := [] } 99 =
    some { currentKey := "213".toList
           currentText := "HE".toList
           currentScore := evaluate_plaintext "HE".toList
           bestKey := "123".toList
           bestText := "EH".toList
           bestScore := evaluate_plaintext "EH".toList
           noImp := 0
           restarts := 2
           evals := List.replicate 100 (evaluate_plaintext "EH".toList) ++
             [evaluate_plaintext "EH".toList, evaluate_plaintext "HE".toList]
           accepted := [] } := by
  have hswap : swap_random_positions "123".toList ((1, 2) : Nat × Nat) =
      some "132".toList := by decide
  have hdec : decrypt "EH".toList "132".toList = some "EH".toList := by decide
  have hdec2 : decrypt "EH".toList (generate_random_key 3 [1, 1 - 1, 2]) =
      some "HE".toList := by decide
  simp only [hcStep, hswap, hdec, Option.bind_eq_bind, Option.some_bind,
    Option.pure_def]
  rw [if_neg (lt_irrefl (evaluate_plaintext "EH".toList))]
  rw [if_pos (show (100 : Nat) ≤ 99 + 1 from by omega)]
  simp only [hdec2, Option.some_bind]
  rfl

/-- **C4 (counterexample).** A run on ciphertext `"EH"` with key length 3:
the initial key `123` decrypts to `"EH"`; every neighbor (swap of positions
1 and 2) decrypts to `"EH"` again, so after 100 non-improving iterations the
loop restarts from the random key `213`, which decrypts to `"HE"` — a
strictly better score that is evaluated (it is in the `evals` trace) but
never folded into the best.  The attack returns the strictly smaller initial
score, so the returned score is not the maximum over all evaluated
candidate keys. -/
theorem c4_restart_score_lost :
    ∃ st, hcRun "EH".toList 3 ⟨fun t => [t, 1 - t, 2], fun _ => (1, 2)⟩ 100 =
        some st ∧
      hill_climbing_attack "EH".toList 3 100
        ⟨fun t => [t, 1 - t, 2], fun _ => (1, 2)⟩ =
        some (st.bestKey, st.bestText, st.bestScore) ∧
      evaluate_plaintext "HE".toList ∈ st.evals ∧
      st.bestScore < evaluate_plaintext "HE".toList := by
  have hrun : hcRun "EH".toList 3 ⟨fun t => [t, 1 - t, 2], fun _ => (1, 2)⟩ 100 =
      some { currentKey := "213".toList
             currentText := "HE".toList
             currentScore := evaluate_plaintext "HE".toList
             bestKey := "123".toList
             bestText := "EH".toList
             bestScore := evaluate_plaintext "EH".toList
             noImp := 0
             restarts := 2
             evals := List.replicate 100 (evaluate_plaintext "EH".toList) ++
               [evaluate_plaintext "EH".toList, evaluate_plaintext "HE".toList]
             accepted := [] } := by
    rw [show (100 : Nat) = 99 + 1 from rfl, hcRun_succ, hc_ex_run 99 (le_refl 99),
      option_bind_some]
    exact hc_ex_restart
  refine ⟨_, hrun, ?_, ?_, ?_⟩
  · unfold hill_climbing_attack
    rw [hrun]
    rfl
  · exact List.mem_append.mpr (Or.inr
      (List.mem_cons_of_mem _ (List.mem_cons_self _ _)))
  · exact eh_lt_he
